import Mathlib

/-!
# libstr: the string tokenizer (`src/string_tokenizer.c`, `include/strutils.h`) and the
numeric conversions (`src/numeric_string.c`)

A shallow embedding of the cursor engine and of the conversions.  Conventions of the
embedding:

* a `char` is the integer value the C code compares (`Int`, so that both a signed and an
  unsigned `char` are covered);
* `size_t` is a natural number below `2 ^ 64`, arithmetic on it is reduced modulo `2 ^ 64`;
  `int` is an integer in `[-2 ^ 31, 2 ^ 31)`;
* the memory block behind `tokenizer->string` is the list of its allocated bytes: a read at
  an index outside the list is undefined behaviour and is reported as `Fault.outOfBounds`;
* a string returned by an extractor is described by the number of bytes requested from
  `malloc` and by the bytes the function stores into the block, in order, the final NUL
  included; `malloc` is taken to succeed (the extractors never test its result), and a store
  beyond the requested size is not a fault of the run: it shows as `bytes` being longer than
  `alloc`;
* loops run on a fuel argument fixed by the caller from the size of the block; running out
  of it is reported as `Fault.outOfFuel`, a value distinct from every other outcome, and
  `fuel_suffices` (`st_append_string_fuel` for the append loop) shows that it never happens
  for a block inside the address space;
* where the code tests the result of `malloc` or `realloc`, the allocator answers through a
  `Heap` argument: it may fail, and the bytes of fresh memory are arbitrary; no block is
  larger than `PTRDIFF_MAX`;
* the functions of the C library are not part of the repository: `%d` and `%.13Lf` of
  `snprintf` are written out after ISO C, on integers and on finite values
  `mantissa * 2 ^ exponent`; `strtold`, `strtod` and `gcvt` are arguments of the functions
  that call them.
-/

namespace Libstr

/-! ## Machine integers -/

/-- Number of values of a `size_t` (LP64). -/
def SIZE : Nat := 18446744073709551616

/-- Largest `int`. -/
def INT_MAX : Int := 2147483647

/-- Smallest `int`. -/
def INT_MIN : Int := -2147483648

/-- Conversion of an `int` to `size_t` (value modulo `2 ^ 64`), as done by the usual
arithmetic conversions when an `int` meets a `size_t`. -/
def toSizeT (i : Int) : Nat := (i % (SIZE : Int)).toNat

/-- Conversion of a `size_t` to `int`: the value is reduced modulo `2 ^ 32` into the range
of `int` (the behaviour GCC and Clang define for this conversion). -/
def toInt (n : Nat) : Int :=
  if n % 4294967296 < 2147483648 then ((n % 4294967296 : Nat) : Int)
  else ((n % 4294967296 : Nat) : Int) - 4294967296

/-! ## Outcomes -/

/-- Ways in which a run of the C code leaves the defined behaviour of the language (or, for
`outOfFuel`, in which the loop bound of the embedding is exhausted). -/
inductive Fault where
  | outOfBounds
  | signedOverflow
  | outOfFuel
  deriving DecidableEq, Repr

/-- Outcome of a run: a result, or the fault that ended it. -/
inductive Outcome (α : Type) where
  | ok (a : α)
  | error (f : Fault)
  deriving DecidableEq, Repr

/-- Read of `string[i]` for a `size_t` index. -/
def readAt (string : List Int) (i : Nat) : Outcome Int :=
  match string[i]? with
  | some b => .ok b
  | none => .error .outOfBounds

/-- Read of `string[i]` for an `int` index. -/
def readAtInt (string : List Int) (i : Int) : Outcome Int :=
  if i < 0 then .error .outOfBounds else readAt string i.toNat

/-! ## Data model -/

/-- The `struct StringTokenizer` of `strutils.h`; `string` is the memory block the pointer
refers to. -/
structure StringTokenizer where
  string : List Int
  length : Nat
  position : Nat
  incremental_factor : Nat
  deriving DecidableEq, Repr

/-- A block obtained from `malloc` and filled by an extractor: `alloc` is the size passed to
`malloc`, `bytes` are the bytes stored from index 0 on, the closing NUL included. -/
structure CBuffer where
  alloc : Nat
  bytes : List Int
  deriving DecidableEq, Repr

/-- The C string a caller reads from a returned block: its bytes up to the first NUL. -/
def CBuffer.text (b : CBuffer) : List Int := b.bytes.takeWhile (fun c => c ≠ 0)

/-- The bytes of a Lean string literal, as `char` values. -/
def chars (s : String) : List Int := s.toList.map (fun c => (c.toNat : Int))

/-- `strlen` of a C string given by its bytes (a NUL terminator follows the list): the
number of bytes before the first NUL. -/
def strlen (s : List Int) : Nat := (s.takeWhile (fun c => c ≠ 0)).length

/-- The function `is_numeric` of `strutils.h`. -/
def is_numeric (token : Int) : Int :=
  if token = 45 ∨ token = 43 then 1
  else if token ≥ 48 ∧ token ≤ 57 then 1
  else if token = 46 then 1
  else if token = 101 ∨ token = 69 then 1
  else 0

/-! ## Scanning -/

/-- The `do ... while` loop of `st_next_token`, the cursor being `position` on entry of the
body. -/
def next_token_loop (string : List Int) (length : Nat) : Nat → Nat → Outcome Nat
  | 0, _ => .error .outOfFuel
  | fuel + 1, position =>
    let position := (position + 1) % SIZE
    match readAt string position with
    | .error e => .error e
    | .ok b =>
      if b ≤ 32 ∧ position ≤ length then next_token_loop string length fuel position
      else .ok position

/-- The function `st_next_token`. -/
def st_next_token (t : StringTokenizer) : Outcome StringTokenizer :=
  match next_token_loop t.string t.length (t.string.length + 1) t.position with
  | .error e => .error e
  | .ok position => .ok { t with position := position }

/-- The function `st_current_token`. -/
def st_current_token (t : StringTokenizer) : Outcome Int :=
  readAt t.string t.position

/-- The scanning `while` loop shared in shape by `st_sub_string` and `st_extract_numbers`:
while `continue_ token` holds, step the cursor and read the byte under it. -/
def scan_loop (string : List Int) (continue_ : Int → Bool) : Nat → Nat → Int → Outcome Nat
  | 0, _, _ => .error .outOfFuel
  | fuel + 1, position, token =>
    if continue_ token then
      let position := (position + 1) % SIZE
      match readAt string position with
      | .error e => .error e
      | .ok token => scan_loop string continue_ fuel position token
    else .ok position

/-- The copying `for (int i = start; test(i); i++)` loop of `st_sub_string` and
`st_extract_numbers`; `test` receives `i` converted to `size_t`, as the comparison with the
`size_t` bound `end` does. -/
def copy_loop (string : List Int) (test : Nat → Bool) : Nat → Int → List Int → Outcome (List Int)
  | 0, _, _ => .error .outOfFuel
  | fuel + 1, i, acc =>
    if test (toSizeT i) then
      match readAtInt string i with
      | .error e => .error e
      | .ok b =>
        if i = INT_MAX then .error .signedOverflow
        else copy_loop string test fuel (i + 1) (acc ++ [b])
    else .ok acc

/-- The function `st_sub_string`; `none` is the `NULL` result. -/
def st_sub_string (t : StringTokenizer) (start_delim end_delim : Int) :
    Outcome (Option CBuffer × StringTokenizer) :=
  match readAt t.string t.position with
  | .error e => .error e
  | .ok token =>
    if token ≠ start_delim then .ok (none, t)
    else
      let position := (t.position + 1) % SIZE
      match readAt t.string position with
      | .error e => .error e
      | .ok token =>
        let start := position
        match scan_loop t.string (fun c => c ≠ 0 ∧ c ≠ end_delim) (t.string.length + 1)
            position token with
        | .error e => .error e
        | .ok position =>
          let end_ := position
          let length := (end_ + SIZE - start) % SIZE
          match copy_loop t.string (fun i => i < end_) (t.string.length + 1) (toInt start) [] with
          | .error e => .error e
          | .ok copied =>
            .ok (some { alloc := (length + 1) % SIZE, bytes := copied ++ [0] },
                 { t with position := position })

/-- The copying `while (tokenizer->position <= end)` loop of `st_slice_string`. -/
def slice_loop (string : List Int) (end_ : Nat) : Nat → Nat → List Int → Outcome (List Int × Nat)
  | 0, _, _ => .error .outOfFuel
  | fuel + 1, position, acc =>
    if position ≤ end_ then
      match readAt string position with
      | .error e => .error e
      | .ok b => slice_loop string end_ fuel ((position + 1) % SIZE) (acc ++ [b])
    else .ok (acc, position)

/-- The function `st_slice_string`; `length` is the `int` argument. -/
def st_slice_string (t : StringTokenizer) (length : Int) :
    Outcome (Option CBuffer × StringTokenizer) :=
  if toSizeT length > (t.length + SIZE - t.position) % SIZE then .ok (none, t)
  else
    let end_ := (t.position + toSizeT length) % SIZE
    match slice_loop t.string end_ (t.string.length + 1) t.position [] with
    | .error e => .error e
    | .ok (copied, position) =>
      .ok (some { alloc := (toSizeT length + 1) % SIZE, bytes := copied ++ [0] },
           { t with position := position })

/-- The function `st_extract_numbers`. -/
def st_extract_numbers (t : StringTokenizer) : Outcome (Option CBuffer × StringTokenizer) :=
  match readAt t.string t.position with
  | .error e => .error e
  | .ok token =>
    let start := t.position
    match scan_loop t.string (fun c => c ≠ 0 ∧ is_numeric c = 1) (t.string.length + 1)
        t.position token with
    | .error e => .error e
    | .ok position =>
      let end_ := position
      let length := (end_ + SIZE - start) % SIZE
      let position := (position + SIZE - 1) % SIZE
      if length = 0 then .ok (none, { t with position := position })
      else
        match copy_loop t.string (fun i => i ≤ end_) (t.string.length + 1) (toInt start) [] with
        | .error e => .error e
        | .ok copied =>
          .ok (some { alloc := (length + 1) % SIZE, bytes := copied ++ [0] },
               { t with position := position })

/-- The library function `strncmp`, on the bytes of two blocks: zero exactly when the first
`n` bytes agree up to a common NUL. Only the distinction zero / non-zero is used by the
callers; a read past the end of a block is a fault. -/
def strncmp : List Int → List Int → Nat → Outcome Int
  | _, _, 0 => .ok 0
  | [], _, _ + 1 => .error .outOfBounds
  | _ :: _, [], _ + 1 => .error .outOfBounds
  | a :: s1, b :: s2, n + 1 =>
    if a ≠ b then .ok (a - b) else if a = 0 then .ok 0 else strncmp s1 s2 n

/-- The function `st_starts_with`; the needle is given by its bytes, a NUL following
them. -/
def st_starts_with (t : StringTokenizer) (needle : List Int) :
    Outcome (Int × StringTokenizer) :=
  let original_position := t.position
  let length := strlen needle
  match st_slice_string t (toInt length) with
  | .error e => .error e
  | .ok (none, t1) => .ok (0, { t1 with position := original_position })
  | .ok (some extracted_string, t1) =>
    match strncmp extracted_string.bytes (needle ++ [0]) length with
    | .error e => .error e
    | .ok r =>
      if r ≠ 0 then .ok (0, { t1 with position := original_position })
      else .ok (1, t1)

/-- A tokenizer over the text `s`, as `st_create` builds it: the block holds the bytes of
`s` and the terminator. -/
def ofText (s : String) (position : Nat) : StringTokenizer :=
  { string := chars s ++ [0], length := (chars s).length, position := position,
    incremental_factor := 0 }


/-! ## Predicates on tokenizers and sample tokenizers -/

/-- The block of the tokenizer holds more bytes than `length` (for a text wrapped by
`st_create` the extra byte is the terminator) and lies in a 64-bit address space. -/
def Allocated (t : StringTokenizer) : Prop :=
  t.length < t.string.length ∧ t.string.length < SIZE

instance (t : StringTokenizer) : Decidable (Allocated t) := by
  unfold Allocated; infer_instance

/-- The byte at index `length` of the block is the NUL terminator, and `length` is a value
of `size_t`. -/
def NulTerminated (t : StringTokenizer) : Prop :=
  t.string[t.length]? = some 0 ∧ t.length < SIZE

instance (t : StringTokenizer) : Decidable (NulTerminated t) := by
  unfold NulTerminated; infer_instance

/-- The tokenizer over `"truefalse"` with the cursor at index 0. -/
def trueFalse : StringTokenizer := ofText "truefalse" 0

/-- The tokenizer over `"falsetrue"` with the cursor at index 0. -/
def falseTrue : StringTokenizer := ofText "falsetrue" 0

/-- A text of `2 ^ 31` blanks followed by `(a)`, the cursor on the `(`. -/
def pastIntMax : StringTokenizer :=
  { string := List.replicate 2147483648 32 ++ [40, 97, 41, 0], length := 2147483651,
    position := 2147483648, incremental_factor := 0 }

/-- The numeric run at the cursor: the longest prefix of the bytes from `position` on whose
bytes all belong to the numeric character set. -/
def numeric_run (t : StringTokenizer) : List Int :=
  (t.string.drop t.position).takeWhile (fun c => is_numeric c = 1)

/-- The tokenizer over `"-12.5e3abc"` with the cursor at index 0. -/
def numberThenText : StringTokenizer := ofText "-12.5e3abc" 0

/-! ## The allocator -/

/-- Largest size of an object (`PTRDIFF_MAX` on LP64). -/
def PTRDIFF_MAX : Nat := 9223372036854775807

/-- The answer of the allocator to one request: `none` when it cannot serve it, otherwise the
bytes found in the memory it hands out, by index (their values are indeterminate). -/
abbrev Heap := Option (Nat → Int)

/-- The library function `malloc`: a block of `n` bytes with indeterminate contents, or `none`
for `NULL`. A request above `PTRDIFF_MAX` is refused, as the allocators of glibc, musl and the
BSDs do. -/
def malloc (n : Nat) (heap : Heap) : Option (List Int) :=
  if n > PTRDIFF_MAX then none
  else match heap with
    | none => none
    | some fresh => some ((List.range n).map fresh)

/-- The library function `realloc`: a block of `n` bytes that starts with the bytes of `block`
(as many as fit), the rest indeterminate; `none` for `NULL`, in which case `block` stays as it
is. -/
def realloc (block : List Int) (n : Nat) (heap : Heap) : Option (List Int) :=
  if n > PTRDIFF_MAX then none
  else match heap with
    | none => none
    | some fresh => some ((List.range n).map (fun i => (block[i]?).getD (fresh i)))

/-- The library function `memset` on the first `n` bytes of a block. -/
def memset (block : List Int) (c : Int) (n : Nat) : Outcome (List Int) :=
  if n ≤ block.length then .ok (List.replicate n c ++ block.drop n)
  else .error .outOfBounds

/-- The library function `strlen` on a memory block: the index of its first NUL; without a
NUL in the block the scan reads past its end. -/
def strlen_block (block : List Int) : Outcome Nat :=
  if strlen block < block.length then .ok (strlen block) else .error .outOfBounds

/-! ## Construction -/

/-- The function `st_create`; the argument is `none` for a `NULL` pointer and otherwise the
block the pointer refers to; `heap` answers the `malloc` of the `struct` (32 bytes). -/
def st_create (string : Option (List Int)) (heap : Heap) : Outcome (Option StringTokenizer) :=
  match string with
  | none => .ok none
  | some block =>
    match strlen_block block with
    | .error e => .error e
    | .ok length =>
      if length = 0 then .ok none
      else
        match malloc 32 heap with
        | none => .ok none
        | some _ =>
          .ok (some { string := block, length := length, position := 0,
                      incremental_factor := 0 })

/-- The function `st_create_empty`; `heap_string` answers the `malloc` of the buffer and
`heap` the one of the `struct`. -/
def st_create_empty (string_size : Nat) (heap_string heap : Heap) :
    Outcome (Option StringTokenizer) :=
  match malloc ((string_size + 1) % SIZE) heap_string with
  | none => .ok none
  | some block =>
    match memset block 32 string_size with
    | .error e => .error e
    | .ok block =>
      match st_create (some block) heap with
      | .error e => .error e
      | .ok none => .ok none
      | .ok (some tokenizer) => .ok (some { tokenizer with incremental_factor := string_size })

/-! ## Building -/

/-- The function `st_expand_string`. -/
def st_expand_string (t : StringTokenizer) (size : Nat) (heap : Heap) : Int × StringTokenizer :=
  if (t.position + size) % SIZE < t.length then (1, t)
  else
    let add_size := if size > t.incremental_factor then size else t.incremental_factor
    let new_length := (t.length + add_size) % SIZE
    match realloc t.string new_length heap with
    | none => (0, t)
    | some string =>
      (1, { t with string := string, length := new_length, incremental_factor := add_size })

/-- Store of `c` at `block[i]`; a store outside the block is a fault. -/
def writeAt (block : List Int) (i : Nat) (c : Int) : Outcome (List Int) :=
  if i < block.length then .ok (block.set i c) else .error .outOfBounds

/-- The copying `while (tokenizer->position < end)` loop of `st_append_string`; `text` is the
block of the appended string (its bytes and the terminator). -/
def append_loop (text : List Int) (end_ : Nat) :
    Nat → List Int → Nat → Nat → Outcome (List Int × Nat)
  | 0, _, _, _ => .error .outOfFuel
  | fuel + 1, block, position, index =>
    if position < end_ then
      match readAt text index with
      | .error e => .error e
      | .ok c =>
        match writeAt block position c with
        | .error e => .error e
        | .ok block => append_loop text end_ fuel block ((position + 1) % SIZE) ((index + 1) % SIZE)
    else .ok (block, position)

/-- The function `st_append_string`; the appended string is given by its bytes, a NUL
following them. -/
def st_append_string (t : StringTokenizer) (string : List Int) (heap : Heap) :
    Outcome (Int × StringTokenizer) :=
  let length := strlen string
  match st_expand_string t length heap with
  | (r, t1) =>
    if r = 0 then .ok (0, t1)
    else
      let end_ := (t1.position + length) % SIZE
      match append_loop (string ++ [0]) end_ (t1.string.length + 1) t1.string t1.position 0 with
      | .error e => .error e
      | .ok (block, position) => .ok (1, { t1 with string := block, position := position })

/-- The function `st_append_quoted_string`; the three heaps answer the `realloc` of the three
appends. -/
def st_append_quoted_string (t : StringTokenizer) (string : List Int) (heap1 heap2 heap3 : Heap) :
    Outcome (Int × StringTokenizer) :=
  match st_append_string t [34] heap1 with
  | .error e => .error e
  | .ok (r1, t1) =>
    if r1 = 0 then .ok (0, t1)
    else
      match st_append_string t1 string heap2 with
      | .error e => .error e
      | .ok (r2, t2) =>
        if r2 = 0 then .ok (0, t2)
        else
          match st_append_string t2 [34] heap3 with
          | .error e => .error e
          | .ok (r3, t3) => if r3 = 0 then .ok (0, t3) else .ok (1, t3)

/-- The function `st_extract_double`; `strtod` is the library conversion applied to the
extracted text. -/
def st_extract_double {α : Type} (strtod : List Int → α) (t : StringTokenizer) :
    Outcome (Option α × StringTokenizer) :=
  match st_extract_numbers t with
  | .error e => .error e
  | .ok (none, t1) => .ok (none, t1)
  | .ok (some numbers, t1) => .ok (some (strtod numbers.text), t1)

/-- The function `st_extract_boolean`. -/
def st_extract_boolean (t : StringTokenizer) (bool_value : List Int) (int_value : Int) :
    Outcome (Option Int × StringTokenizer) :=
  match st_starts_with t bool_value with
  | .error e => .error e
  | .ok (r, t1) => if r = 0 then .ok (none, t1) else .ok (some int_value, t1)

/-- The function `st_append_double`; `gcvt` is the result of the library conversion of the
value into the 32-byte local array (`none` for `NULL`). -/
def st_append_double (t : StringTokenizer) (gcvt : Option (List Int)) (heap : Heap) :
    Outcome (Int × StringTokenizer) :=
  match gcvt with
  | none => .ok (0, t)
  | some string => st_append_string t string heap

/-! ## Numeric conversion (`src/numeric_string.c`) -/

/-- Decimal digits of `n`, most significant first, as characters. -/
def decimal_digits : Nat → Nat → List Int
  | 0, _ => []
  | fuel + 1, n =>
    if n < 10 then [48 + (n : Int)]
    else decimal_digits fuel (n / 10) ++ [48 + ((n % 10 : Nat) : Int)]

/-- Decimal numeral of a natural number (`"0"` for 0, no leading zero otherwise). -/
def decimal (n : Nat) : List Int := decimal_digits (n + 1) n

/-- The text the conversion `%d` of `printf` produces for an `int` (ISO C 7.21.6.1): the
decimal numeral of the magnitude, preceded by `-` for a negative value. -/
def format_d (value : Int) : List Int :=
  if value < 0 then 45 :: decimal value.natAbs else decimal value.natAbs

/-- The library function `snprintf(str, size, ...)` for a conversion whose complete text is
`text`: the bytes stored into `str` (at most `size - 1` of the text, then a NUL; nothing for
`size = 0`), and the returned count, the length of the complete text. -/
def snprintf (size : Nat) (text : List Int) : List Int × Int :=
  (if size = 0 then [] else text.take (size - 1) ++ [0], (text.length : Int))

/-- The function `itos` of `numeric_string.c`; `none` is the `NULL` result. -/
def itos (value : Int) (heap : Heap) : Option CBuffer :=
  let buffer_size := toSizeT ((snprintf 0 (format_d value)).2 + 1)
  match malloc buffer_size heap with
  | none => none
  | some _ => some { alloc := buffer_size, bytes := (snprintf buffer_size (format_d value)).1 }

/-- The constant `NUMERIC_STRING_MAX_SIZE`. -/
def NUMERIC_STRING_MAX_SIZE : Nat := 100

/-- The constant `NUMERIC_STRING_PRECISION`. -/
def NUMERIC_STRING_PRECISION : Nat := 13

/-- A finite `long double`: the value is `mantissa * 2 ^ exponent`, negated when `negative`
(a negative zero has `mantissa = 0`). -/
structure LongDouble where
  negative : Bool
  mantissa : Nat
  exponent : Int
  deriving DecidableEq, Repr

/-- The magnitude of `v` times `10 ^ precision`, rounded to the nearest integer, ties to
even: the digits that a fixed-point conversion with `precision` decimals prints. -/
def LongDouble.scaled (v : LongDouble) (precision : Nat) : Nat :=
  if 0 ≤ v.exponent then v.mantissa * 2 ^ v.exponent.toNat * 10 ^ precision
  else
    let num := v.mantissa * 10 ^ precision
    let den := 2 ^ (-v.exponent).toNat
    let q := num / den
    let r := num % den
    if 2 * r < den then q
    else if 2 * r > den then q + 1
    else if q % 2 = 0 then q else q + 1

/-- The text the conversion `%.*Lf` of `printf` produces for a finite value (ISO C 7.21.6.1,
`f` conversion): sign, decimal numeral of the integer part, and, for a precision above 0, a
point and exactly `precision` digits. -/
def format_Lf (precision : Nat) (v : LongDouble) : List Int :=
  let q := v.scaled precision
  let fraction := decimal (q % 10 ^ precision)
  (if v.negative then [45] else []) ++ decimal (q / 10 ^ precision) ++
    (if precision = 0 then []
     else 46 :: (List.replicate (precision - fraction.length) 48 ++ fraction))

/-- The function `ldtos`; `none` is the `NULL` result. -/
def ldtos (value : LongDouble) (heap : Heap) : Option CBuffer :=
  match malloc NUMERIC_STRING_MAX_SIZE heap with
  | none => none
  | some _ =>
    some { alloc := NUMERIC_STRING_MAX_SIZE,
           bytes := (snprintf NUMERIC_STRING_MAX_SIZE
             (format_Lf NUMERIC_STRING_PRECISION value)).1 }

instance : Zero LongDouble := ⟨{ negative := false, mantissa := 0, exponent := 0 }⟩

/-- The error number `EINVAL`. -/
def EINVAL : Int := 22

/-- What the library function `strtold` reports for a text: the converted value, the number
of characters it consumed (`endptr - nptr`), and the error number it stores into `errno`
(0 when it leaves `errno` alone). -/
structure Strtold (α : Type) where
  value : α
  consumed : Nat
  error : Int

/-- The error flag `errno` of the C library, shared by all callers. -/
structure ErrorState where
  errno : Int
  deriving DecidableEq, Repr

/-- The function `stold`; `strtold` is the library parser, `env` holds the error flag before
the call; the result is the returned value with the error flag after the call. -/
def stold {α : Type} [Zero α] (strtold : List Int → Strtold α) (numeric_string : List Int)
    (env : ErrorState) : Outcome (α × ErrorState) :=
  let env := { env with errno := 0 }
  let r := strtold numeric_string
  let env := if r.error ≠ 0 then { env with errno := r.error } else env
  if env.errno ≠ 0 then .ok (0, env)
  else
    match readAt (numeric_string ++ [0]) r.consumed with
    | .error e => .error e
    | .ok c => if c ≠ 0 then .ok (0, { env with errno := EINVAL }) else .ok (r.value, env)

/-- What `strtold` reports for a text that does not start with a number, the empty text
included (ISO C 7.22.1.4): no conversion is performed, zero is returned and `endptr` is the
start of the text; `errno` is left alone, as in glibc. -/
def no_conversion : Strtold LongDouble := { value := 0, consumed := 0, error := 0 }

/-- The number a run of decimal digits denotes. -/
def digits_value (digits : List Int) : Nat :=
  digits.foldl (fun acc c => 10 * acc + (c - 48).toNat) 0

/-- Reading a text back as a signed decimal integer: an optional leading `-`, then decimal
digits. -/
def parse_decimal (text : List Int) : Int :=
  match text with
  | 45 :: digits => -(digits_value digits : Int)
  | digits => (digits_value digits : Int)

/-- The `double` nearest to `118.0472176809648`, the value of the constant in the unit
tests. -/
def sample118 : LongDouble := { negative := false, mantissa := 8306834461876827, exponent := -46 }

/-- The value `2 ^ 300`. -/
def twoPow300 : LongDouble :=
  { negative := false, mantissa := 9223372036854775808, exponent := 237 }

/-- The value `2 ^ 280`, which has 85 digits before the point. -/
def twoPow280 : LongDouble :=
  { negative := false, mantissa := 9223372036854775808, exponent := 217 }

/-- The value `-(2 ^ 280)`. -/
def minusTwoPow280 : LongDouble :=
  { negative := true, mantissa := 9223372036854775808, exponent := 217 }

/-! ## Further predicates and sample tokenizers -/

/-- The tokenizer describes memory that exists: the capacity lies within the block of
`string`, and the block and the growth step are sizes of objects. The tokenizers built by
`st_create` and `st_create_empty` are of this kind, and `st_append_string` keeps them so. -/
def Sized (t : StringTokenizer) : Prop :=
  t.length ≤ t.string.length ∧ t.string.length ≤ PTRDIFF_MAX ∧
    t.incremental_factor ≤ PTRDIFF_MAX

instance (t : StringTokenizer) : Decidable (Sized t) := by
  unfold Sized; infer_instance

/-- The block `block` with the bytes of `text` stored from index `position` on. -/
def overwrite (block : List Int) (position : Nat) (text : List Int) : List Int :=
  block.take position ++ text ++ block.drop (position + text.length)

/-- The tokenizer `st_create_empty(4)` yields when the byte after the four blanks reads as
NUL, with the cursor moved to `position`. -/
def blank4 (position : Nat) : StringTokenizer :=
  { string := [32, 32, 32, 32, 0], length := 4, position := position, incremental_factor := 4 }

/-- The tokenizer `st_create_empty(5)` yields when the byte after the five blanks reads as
NUL. -/
def blank5 : StringTokenizer :=
  { string := [32, 32, 32, 32, 32, 0], length := 5, position := 0, incremental_factor := 5 }

/-- A heap that serves the request with memory full of the byte 9. -/
def nines : Heap := some (fun _ => 9)

/-! ## Samples beyond the range of `int`, the record of the stores of an append, and the
`itos` of `src/itos.c` -/

/-- A text of `2 ^ 31` letters `a`, wrapped as `st_create` does, the cursor at 0. -/
def longText : StringTokenizer :=
  { string := List.replicate 2147483648 97 ++ [0], length := 2147483648, position := 0,
    incremental_factor := 0 }

/-- A needle of `2 ^ 31` letters `a`. -/
def longNeedle : List Int := List.replicate 2147483648 97

/-- The loop of `st_append_string` (`append_loop`) with a record of the buffer indices it
stores to, in order. -/
def append_loop_writes (text : List Int) (end_ : Nat) :
    Nat → List Int → Nat → Nat → List Nat → Outcome (List Int × Nat × List Nat)
  | 0, _, _, _, _ => .error .outOfFuel
  | fuel + 1, block, position, index, writes =>
    if position < end_ then
      match readAt text index with
      | .error e => .error e
      | .ok c =>
        match writeAt block position c with
        | .error e => .error e
        | .ok block =>
          append_loop_writes text end_ fuel block ((position + 1) % SIZE) ((index + 1) % SIZE)
            (writes ++ [position])
    else .ok (block, position, writes)

/-- Record of the stores of one call of `st_append_string`: the capacity in force after its
call of `st_expand_string`, the buffer indices stored to, in order, and the cursor at the
return. -/
structure Stores where
  capacity : Nat
  indices : List Nat
  position : Nat
  deriving DecidableEq, Repr

/-- The function `st_append_string` with, next to its result, the record of its stores. -/
def st_append_string_writes (t : StringTokenizer) (string : List Int) (heap : Heap) :
    Outcome (Int × StringTokenizer × Stores) :=
  let length := strlen string
  match st_expand_string t length heap with
  | (r, t1) =>
    if r = 0 then .ok (0, t1, { capacity := t1.length, indices := [], position := t1.position })
    else
      let end_ := (t1.position + length) % SIZE
      match append_loop_writes (string ++ [0]) end_ (t1.string.length + 1) t1.string
          t1.position 0 [] with
      | .error e => .error e
      | .ok (block, position, writes) =>
        .ok (1, { t1 with string := block, position := position },
             { capacity := t1.length, indices := writes, position := position })

/-- The function `st_append_quoted_string` with, next to its result, the records of the
appends it made, in order. -/
def st_append_quoted_string_writes (t : StringTokenizer) (string : List Int)
    (heap1 heap2 heap3 : Heap) : Outcome (Int × StringTokenizer × List Stores) :=
  match st_append_string_writes t [34] heap1 with
  | .error e => .error e
  | .ok (r1, t1, s1) =>
    if r1 = 0 then .ok (0, t1, [s1])
    else
      match st_append_string_writes t1 string heap2 with
      | .error e => .error e
      | .ok (r2, t2, s2) =>
        if r2 = 0 then .ok (0, t2, [s1, s2])
        else
          match st_append_string_writes t2 [34] heap3 with
          | .error e => .error e
          | .ok (r3, t3, s3) =>
            if r3 = 0 then .ok (0, t3, [s1, s2, s3]) else .ok (1, t3, [s1, s2, s3])

namespace Standalone

/-- The loop `while (n > 9) { length++; n /= 10; }` of the `itos` of `src/itos.c`. -/
def itos_length : Nat → Int → Int → Int
  | 0, _, length => length
  | fuel + 1, n, length =>
    if n > 9 then itos_length fuel (Int.tdiv n 10) (length + 1) else length

/-- The function `itos` of `src/itos.c`; `sprintf` stores the complete text of `%d` and its
terminator, whatever the size of the block. -/
def itos (value : Int) (heap : Heap) : Option CBuffer :=
  let length := itos_length (value.toNat + 1) value 1
  let size := toSizeT length
  match malloc size heap with
  | none => none
  | some _ => some { alloc := size, bytes := format_d value ++ [0] }

end Standalone

/-! # Theorems -/

/-! ## Arithmetic of the conversions -/

theorem toSizeT_natCast (n : Nat) (h : n < SIZE) : toSizeT (n : Int) = n := by
  unfold toSizeT
  simp only [SIZE] at *
  omega

theorem toInt_of_le (n : Nat) (h : n ≤ 2147483647) : toInt n = (n : Int) := by
  unfold toInt
  have : n % 4294967296 = n := Nat.mod_eq_of_lt (by omega)
  rw [this]
  simp
  omega

theorem readAt_ok (s : List Int) (i : Nat) (b : Int) (h : s[i]? = some b) :
    readAt s i = .ok b := by
  simp [readAt, h]

theorem drop_take_succ (s : List Int) (p k : Nat) (b : Int) (h : s[p]? = some b) :
    (s.drop p).take (k + 1) = b :: (s.drop (p + 1)).take k := by
  obtain ⟨hp, hb⟩ := List.getElem?_eq_some_iff.mp h
  rw [List.drop_eq_getElem_cons hp, List.take_succ_cons, hb]

/-! ## The loops -/

theorem scan_loop_spec (s : List Int) (c : Int → Bool) :
    ∀ (k fuel p : Nat) (token : Int), s[p]? = some token →
      (∀ j, j < k → ∃ b, s[p + j]? = some b ∧ c b = true) →
      (∃ b, s[p + k]? = some b ∧ c b = false) →
      p + k < SIZE → k < fuel →
      scan_loop s c fuel p token = .ok (p + k) := by
  intro k
  induction k with
  | zero =>
    intro fuel p token htok _ hend _ hfuel
    obtain ⟨b, hb, hc⟩ := hend
    have hbt : b = token := by
      have := hb.symm.trans htok
      simpa using this
    subst hbt
    cases fuel with
    | zero => omega
    | succ f => simp [scan_loop, hc]
  | succ k ih =>
    intro fuel p token htok hrun hend hsize hfuel
    obtain ⟨b0, hb0, hc0⟩ := hrun 0 (by omega)
    have hbt : b0 = token := by
      have := hb0.symm.trans htok
      simpa using this
    subst hbt
    have hnext : ∃ b, s[p + 1]? = some b := by
      cases k with
      | zero => obtain ⟨b, hb, _⟩ := hend; exact ⟨b, hb⟩
      | succ k => obtain ⟨b, hb, _⟩ := hrun 1 (by omega); exact ⟨b, hb⟩
    obtain ⟨b1, hb1⟩ := hnext
    have hmod : (p + 1) % SIZE = p + 1 := Nat.mod_eq_of_lt (by omega)
    cases fuel with
    | zero => omega
    | succ f =>
      have hrec := ih f (p + 1) b1 hb1
        (fun j hj => by
          have := hrun (j + 1) (by omega)
          rwa [show p + (j + 1) = p + 1 + j by omega] at this)
        (by rwa [show p + (k + 1) = p + 1 + k by omega] at hend)
        (by omega) (by omega)
      simp only [scan_loop, hc0, if_true, hmod, readAt_ok s (p + 1) b1 hb1, hrec]
      congr 1
      omega

theorem copy_loop_spec (s : List Int) (test : Nat → Bool) (stop : Nat)
    (hstop : stop ≤ 2147483647) (hs : stop ≤ s.length) (hfalse : test stop = false) :
    ∀ (k fuel start : Nat) (acc : List Int), start + k = stop →
      (∀ i, start ≤ i → i < stop → test i = true) → k < fuel →
      copy_loop s test fuel (start : Int) acc = .ok (acc ++ (s.drop start).take k) := by
  intro k
  induction k with
  | zero =>
    intro fuel start acc hk _ hfuel
    have hst : toSizeT (start : Int) = start := toSizeT_natCast start (by simp only [SIZE]; omega)
    cases fuel with
    | zero => omega
    | succ f =>
      have : start = stop := by omega
      subst this
      simp [copy_loop, hst, hfalse]
  | succ k ih =>
    intro fuel start acc hk htest hfuel
    have hst : toSizeT (start : Int) = start := toSizeT_natCast start (by simp only [SIZE]; omega)
    have hlt : start < s.length := by omega
    have hget : s[start]? = some s[start] := List.getElem?_eq_getElem hlt
    cases fuel with
    | zero => omega
    | succ f =>
      have hrec := ih f (start + 1) (acc ++ [s[start]]) (by omega)
        (fun i hi1 hi2 => htest i (by omega) hi2) (by omega)
      have hne : ((start : Int) = INT_MAX) = False := by
        simp only [INT_MAX, eq_iff_iff, iff_false]; omega
      have hnn : ¬ ((start : Int) < 0) := by omega
      simp only [copy_loop, hst, htest start (le_refl _) (by omega), if_true, readAtInt, hnn,
        if_false, Int.toNat_ofNat, readAt_ok s start _ hget, hne]
      rw [show ((start : Int) + 1) = ((start + 1 : Nat) : Int) by push_cast; rfl, hrec,
        drop_take_succ s start k _ hget]
      simp

theorem slice_loop_spec (s : List Int) (end_ : Nat) (hs : end_ < s.length)
    (hsize : end_ + 1 < SIZE) :
    ∀ (k fuel p : Nat) (acc : List Int), p + k = end_ + 1 → k < fuel →
      slice_loop s end_ fuel p acc = .ok (acc ++ (s.drop p).take k, end_ + 1) := by
  intro k
  induction k with
  | zero =>
    intro fuel p acc hk hfuel
    cases fuel with
    | zero => omega
    | succ f =>
      have : ¬ p ≤ end_ := by omega
      simp [slice_loop, this]
      omega
  | succ k ih =>
    intro fuel p acc hk hfuel
    have hlt : p < s.length := by omega
    have hget : s[p]? = some s[p] := List.getElem?_eq_getElem hlt
    have hmod : (p + 1) % SIZE = p + 1 := Nat.mod_eq_of_lt (by omega)
    cases fuel with
    | zero => omega
    | succ f =>
      have hle : p ≤ end_ := by omega
      simp only [slice_loop, hle, if_true, readAt_ok s p _ hget, hmod]
      rw [ih f (p + 1) _ (by omega) (by omega), drop_take_succ s p k _ hget]
      simp

/-! ## Adequacy of the fuel

For a block inside the address space (`string.length < SIZE`) the fuel `string.length + 1`
handed to each loop is never exhausted: every iteration performs a read inside the block at
an index one above the previous one. -/

theorem slice_loop_fuel (s : List Int) (end_ : Nat) (hs : s.length < SIZE) :
    ∀ (fuel p : Nat) (acc : List Int), 0 < fuel → (p < s.length → s.length < fuel + p) →
      slice_loop s end_ fuel p acc ≠ .error .outOfFuel := by
  intro fuel
  induction fuel with
  | zero => intro p acc h; omega
  | succ f ih =>
    intro p acc _ hinv
    unfold slice_loop
    split
    · cases hr : readAt s p with
      | error e =>
        simp only [readAt] at hr
        split at hr
        · cases hr
        · cases hr; simp
      | ok b =>
        have hp : p < s.length := by
          simp only [readAt] at hr
          split at hr
          · rename_i hget; exact (List.getElem?_eq_some_iff.mp hget).1
          · cases hr
        have hmod : (p + 1) % SIZE = p + 1 := Nat.mod_eq_of_lt (by omega)
        simp only [hmod]
        exact ih (p + 1) _ (by have := hinv hp; omega) (fun _ => by have := hinv hp; omega)
    · simp

theorem readAt_cases (s : List Int) (p : Nat) :
    readAt s p = .error .outOfBounds ∨ ∃ b, readAt s p = .ok b ∧ p < s.length := by
  unfold readAt
  cases h : s[p]? with
  | none => exact Or.inl rfl
  | some b => exact Or.inr ⟨b, rfl, (List.getElem?_eq_some_iff.mp h).1⟩

theorem scan_loop_fuel (s : List Int) (c : Int → Bool) (hs : s.length < SIZE) :
    ∀ (fuel p : Nat) (token : Int), p < s.length → s.length ≤ fuel + p →
      scan_loop s c fuel p token ≠ .error .outOfFuel := by
  intro fuel
  induction fuel with
  | zero => intro p token hp h; omega
  | succ f ih =>
    intro p token hp hinv
    unfold scan_loop
    split
    · have hmod : (p + 1) % SIZE = p + 1 := Nat.mod_eq_of_lt (by omega)
      simp only [hmod]
      rcases readAt_cases s (p + 1) with h | ⟨b, h, hlt⟩
      · rw [h]; simp
      · rw [h]; exact ih (p + 1) b hlt (by omega)
    · simp

theorem next_token_loop_fuel (s : List Int) (length : Nat) (hs : s.length < SIZE) :
    ∀ (fuel p : Nat), 0 < fuel → (p < s.length → s.length ≤ fuel + p) →
      (s.length ≤ p → s.length < fuel) →
      next_token_loop s length fuel p ≠ .error .outOfFuel := by
  intro fuel
  induction fuel with
  | zero => intro p h; omega
  | succ f ih =>
    intro p _ h1 h2
    unfold next_token_loop
    simp only
    rcases readAt_cases s ((p + 1) % SIZE) with h | ⟨b, h, hlt⟩
    · rw [h]; simp
    · rw [h]
      simp only
      split
      · by_cases hp : p < s.length
        · have hmod : (p + 1) % SIZE = p + 1 := Nat.mod_eq_of_lt (by omega)
          rw [hmod] at hlt ⊢
          have := h1 hp
          exact ih (p + 1) (by omega) (fun _ => by omega) (fun _ => by omega)
        · have := h2 (by omega)
          exact ih _ (by omega) (fun _ => by omega) (fun _ => by omega)
      · simp

theorem copy_loop_fuel (s : List Int) (test : Nat → Bool) :
    ∀ (fuel : Nat) (i : Int) (acc : List Int), 0 < fuel →
      (0 ≤ i → i < s.length → (s.length : Int) < fuel + i) →
      copy_loop s test fuel i acc ≠ .error .outOfFuel := by
  intro fuel
  induction fuel with
  | zero => intro i acc h; omega
  | succ f ih =>
    intro i acc _ hinv
    unfold copy_loop
    split
    · by_cases hneg : i < 0
      · simp [readAtInt, hneg]
      · simp only [readAtInt, hneg, if_false]
        rcases readAt_cases s i.toNat with h | ⟨b, h, hlt⟩
        · rw [h]; simp
        · rw [h]
          simp only
          split
          · simp
          · have hi : i < s.length := by omega
            have := hinv (by omega) hi
            exact ih (i + 1) _ (by omega) (fun _ _ => by push_cast at this ⊢; omega)
    · simp

theorem strncmp_fault (n : Nat) :
    ∀ (a b : List Int) (e : Fault), strncmp a b n = .error e → e = .outOfBounds := by
  induction n with
  | zero => intro a b e h; cases a <;> cases b <;> simp [strncmp] at h
  | succ n ih =>
    intro a b e h
    cases a with
    | nil => simp [strncmp] at h; exact h.symm
    | cons x a =>
      cases b with
      | nil => simp [strncmp] at h; exact h.symm
      | cons y b =>
        simp only [strncmp] at h
        split at h
        · cases h
        · split at h
          · cases h
          · exact ih a b e h

/-- None of the tokenizer functions runs out of fuel on a block inside the address space. -/
theorem fuel_suffices (t : StringTokenizer) (hs : t.string.length < SIZE) :
    st_next_token t ≠ .error .outOfFuel ∧
    (∀ start_delim end_delim, st_sub_string t start_delim end_delim ≠ .error .outOfFuel) ∧
    (∀ length, st_slice_string t length ≠ .error .outOfFuel) ∧
    st_extract_numbers t ≠ .error .outOfFuel ∧
    (∀ needle, st_starts_with t needle ≠ .error .outOfFuel) := by
  have hslice : ∀ length, st_slice_string t length ≠ .error .outOfFuel := by
    intro length
    unfold st_slice_string
    split
    · simp
    · simp only
      have := slice_loop_fuel t.string ((t.position + toSizeT length) % SIZE) hs
        (t.string.length + 1) t.position [] (by omega) (fun _ => by omega)
      cases hl : slice_loop t.string ((t.position + toSizeT length) % SIZE)
          (t.string.length + 1) t.position [] with
      | error e => rw [hl] at this; simpa using this
      | ok res => simp
  refine ⟨?_, ?_, hslice, ?_, ?_⟩
  · unfold st_next_token
    have := next_token_loop_fuel t.string t.length hs (t.string.length + 1) t.position
      (by omega) (fun _ => by omega) (fun _ => by omega)
    cases hl : next_token_loop t.string t.length (t.string.length + 1) t.position with
    | error e => rw [hl] at this; simpa using this
    | ok res => simp
  · intro start_delim end_delim
    unfold st_sub_string
    rcases readAt_cases t.string t.position with h | ⟨b, h, hlt⟩
    · rw [h]; simp
    · rw [h]
      simp only
      split
      · simp
      · have hmod : (t.position + 1) % SIZE = t.position + 1 := Nat.mod_eq_of_lt (by omega)
        rw [hmod]
        rcases readAt_cases t.string (t.position + 1) with h1 | ⟨b1, h1, hlt1⟩
        · rw [h1]; simp
        · rw [h1]
          simp only
          have hsc := scan_loop_fuel t.string (fun c => c ≠ 0 ∧ c ≠ end_delim) hs
            (t.string.length + 1) (t.position + 1) b1 hlt1 (by omega)
          cases hl : scan_loop t.string (fun c => c ≠ 0 ∧ c ≠ end_delim)
              (t.string.length + 1) (t.position + 1) b1 with
          | error e => rw [hl] at hsc; simpa using hsc
          | ok q =>
            simp only
            have hcp := copy_loop_fuel t.string (fun i => i < q) (t.string.length + 1)
              (toInt (t.position + 1)) [] (by omega) (fun _ _ => by push_cast; omega)
            cases hc : copy_loop t.string (fun i => i < q) (t.string.length + 1)
                (toInt (t.position + 1)) [] with
            | error e => rw [hc] at hcp; simpa using hcp
            | ok copied => simp
  · unfold st_extract_numbers
    rcases readAt_cases t.string t.position with h | ⟨b, h, hlt⟩
    · rw [h]; simp
    · rw [h]
      simp only
      have hsc := scan_loop_fuel t.string (fun c => c ≠ 0 ∧ is_numeric c = 1) hs
        (t.string.length + 1) t.position b hlt (by omega)
      cases hl : scan_loop t.string (fun c => c ≠ 0 ∧ is_numeric c = 1)
          (t.string.length + 1) t.position b with
      | error e => rw [hl] at hsc; simpa using hsc
      | ok q =>
        simp only
        split
        · simp
        · have hcp := copy_loop_fuel t.string (fun i => i ≤ q) (t.string.length + 1)
            (toInt t.position) [] (by omega) (fun _ _ => by push_cast; omega)
          cases hc : copy_loop t.string (fun i => i ≤ q) (t.string.length + 1)
              (toInt t.position) [] with
          | error e => rw [hc] at hcp; simpa using hcp
          | ok copied => simp
  · intro needle
    unfold st_starts_with
    simp only
    have := hslice (toInt (strlen needle))
    cases hl : st_slice_string t (toInt (strlen needle)) with
    | error e => rw [hl] at this; simpa using this
    | ok res =>
      obtain ⟨r, t1⟩ := res
      cases r with
      | none => simp
      | some e =>
        simp only
        cases hc : strncmp e.bytes (needle ++ [0]) (strlen needle) with
        | error e2 =>
          simp only [ne_eq, Outcome.error.injEq]
          rw [strncmp_fault _ _ _ _ hc]
          simp
        | ok r => by_cases hr : r = 0 <;> simp [hr]

/-! ## `st_slice_string` and `st_starts_with` -/

theorem st_slice_string_eval (t : StringTokenizer) (n : Nat) (hn : n ≤ 2147483647)
    (hfit : t.position + n ≤ t.length) (hmem : Allocated t) :
    st_slice_string t (n : Int) =
      .ok (some { alloc := n + 1, bytes := (t.string.drop t.position).take (n + 1) ++ [0] },
           { t with position := t.position + n + 1 }) := by
  obtain ⟨h1, h2⟩ := hmem
  have hcast : toSizeT (n : Int) = n := toSizeT_natCast n (by simp only [SIZE]; omega)
  have hrem : (t.length + SIZE - t.position) % SIZE = t.length - t.position := by
    simp only [SIZE] at *; omega
  have hend : (t.position + n) % SIZE = t.position + n := Nat.mod_eq_of_lt (by omega)
  have hal : (n + 1) % SIZE = n + 1 := Nat.mod_eq_of_lt (by simp only [SIZE]; omega)
  have hguard : ¬ (n > t.length - t.position) := by omega
  have hloop := slice_loop_spec t.string (t.position + n) (by omega) (by omega) (n + 1)
    (t.string.length + 1) t.position [] (by omega) (by omega)
  simp only [st_slice_string, hcast, hrem, hguard, if_false, hend, hloop, hal, List.nil_append]

theorem st_slice_string_frame (t : StringTokenizer) (length : Int) (r : Option CBuffer)
    (t1 : StringTokenizer) (h : st_slice_string t length = .ok (r, t1)) :
    { t1 with position := t.position } = t := by
  unfold st_slice_string at h
  split at h
  · cases h; rfl
  · simp only at h
    cases hl : slice_loop t.string ((t.position + toSizeT length) % SIZE)
        (t.string.length + 1) t.position [] with
    | error e => rw [hl] at h; cases h
    | ok res =>
      obtain ⟨copied, position⟩ := res
      rw [hl] at h
      cases h; rfl

theorem strlen_get (needle : List Int) :
    ∀ i, i < strlen needle → ∃ c, needle[i]? = some c ∧ c ≠ 0 := by
  induction needle with
  | nil => intro i hi; simp [strlen] at hi
  | cons a l ih =>
    intro i hi
    unfold strlen at hi
    by_cases ha : a = 0
    · simp [List.takeWhile, ha] at hi
    · cases i with
      | zero => exact ⟨a, by simp, ha⟩
      | succ i =>
        have : i < strlen l := by
          simp [List.takeWhile, ha] at hi
          simpa [strlen] using hi
        simpa using ih i this

theorem strlen_le (needle : List Int) : strlen needle ≤ needle.length := by
  unfold strlen
  exact (List.takeWhile_sublist _).length_le

theorem strncmp_eq (n : Nat) :
    ∀ (a b : List Int), (∀ i, i < n → ∃ c, a[i]? = some c ∧ b[i]? = some c ∧ c ≠ 0) →
      strncmp a b n = .ok 0 := by
  induction n with
  | zero => intro a b _; cases a <;> cases b <;> simp [strncmp]
  | succ n ih =>
    intro a b h
    obtain ⟨c, ha, hb, hc⟩ := h 0 (by omega)
    cases a with
    | nil => simp at ha
    | cons x a =>
      cases b with
      | nil => simp at hb
      | cons y b =>
        simp at ha hb
        subst ha; subst hb
        simp only [strncmp, ne_eq, not_true_eq_false, if_false, hc]
        apply ih
        intro i hi
        simpa using h (i + 1) (by omega)

theorem strncmp_ne (n : Nat) :
    ∀ (a b : List Int), (∀ i, i < n → (∃ c, a[i]? = some c) ∧ ∃ c, b[i]? = some c ∧ c ≠ 0) →
      (∃ i, i < n ∧ a[i]? ≠ b[i]?) →
      ∃ r, strncmp a b n = .ok r ∧ r ≠ 0 := by
  induction n with
  | zero => intro a b _ h; obtain ⟨i, hi, _⟩ := h; omega
  | succ n ih =>
    intro a b h hex
    obtain ⟨⟨x, ha⟩, y, hb, hy⟩ := h 0 (by omega)
    cases a with
    | nil => simp at ha
    | cons x0 a =>
      cases b with
      | nil => simp at hb
      | cons y0 b =>
        simp at ha hb
        subst ha; subst hb
        by_cases hxy : x0 = y0
        · subst hxy
          simp only [strncmp, ne_eq, not_true_eq_false, if_false, hy]
          apply ih
          · intro i hi
            simpa using h (i + 1) (by omega)
          · obtain ⟨i, hi, hne⟩ := hex
            cases i with
            | zero => simp at hne
            | succ i => exact ⟨i, by omega, by simpa using hne⟩
        · refine ⟨x0 - y0, ?_, ?_⟩
          · simp [strncmp, hxy]
          · omega

theorem getElem?_take_drop_append (s : List Int) (p m i : Nat) (tail : List Int) (hi : i < m)
    (hlen : p + m ≤ s.length) :
    ((s.drop p).take m ++ tail)[i]? = s[p + i]? := by
  have hl : i < ((s.drop p).take m).length := by
    simp [List.length_take, List.length_drop]; omega
  rw [List.getElem?_append_left hl, List.getElem?_take_of_lt hi, List.getElem?_drop]

theorem st_slice_string_short (t : StringTokenizer) (length : Int)
    (hpos : t.position ≤ t.length) (hcap : t.length < SIZE)
    (hmin : INT_MIN ≤ length) (hmax : length ≤ INT_MAX)
    (h : (t.length : Int) - t.position < length ∨
      (length < 0 ∧ t.length - t.position < 18446744071562067968)) :
    st_slice_string t length = .ok (none, t) := by
  have hrem : (t.length + SIZE - t.position) % SIZE = t.length - t.position := by
    simp only [SIZE] at *; omega
  have hguard : toSizeT length > t.length - t.position := by
    unfold toSizeT
    simp only [SIZE, INT_MIN, INT_MAX] at *
    omega
  simp only [st_slice_string, hrem, hguard, if_true]

theorem with_position_self (t : StringTokenizer) : { t with position := t.position } = t := by
  cases t; rfl

theorem st_starts_with_short (t : StringTokenizer) (needle : List Int)
    (hpos : t.position ≤ t.length) (hcap : t.length < SIZE)
    (hint : strlen needle ≤ 2147483647) (h : t.length - t.position < strlen needle) :
    st_starts_with t needle = .ok (0, t) := by
  have hs := st_slice_string_short t (toInt (strlen needle)) hpos hcap
    (by rw [toInt_of_le _ hint]; simp only [INT_MIN]; omega)
    (by rw [toInt_of_le _ hint]; simp only [INT_MAX]; omega)
    (Or.inl (by rw [toInt_of_le _ hint]; omega))
  simp only [st_starts_with, hs, with_position_self]

theorem st_starts_with_compare (t : StringTokenizer) (needle : List Int) (hmem : Allocated t)
    (hint : strlen needle ≤ 2147483647) (hfit : t.position + strlen needle ≤ t.length) :
    st_starts_with t needle =
      match strncmp ((t.string.drop t.position).take (strlen needle + 1) ++ [0])
          (needle ++ [0]) (strlen needle) with
      | .error e => .error e
      | .ok r =>
        if r ≠ 0 then .ok (0, t)
        else .ok (1, { t with position := t.position + strlen needle + 1 }) := by
  have hs := st_slice_string_eval t (strlen needle) hint hfit hmem
  rw [← toInt_of_le _ hint] at hs
  simp only [st_starts_with, hs]

theorem needle_getElem? (needle : List Int) (i : Nat) (hi : i < strlen needle) :
    (needle ++ [0])[i]? = needle[i]? :=
  List.getElem?_append_left (lt_of_lt_of_le hi (strlen_le needle))

theorem st_starts_with_match (t : StringTokenizer) (needle : List Int) (hmem : Allocated t)
    (hint : strlen needle ≤ 2147483647) (hfit : t.position + strlen needle ≤ t.length)
    (heq : ∀ i, i < strlen needle → t.string[t.position + i]? = needle[i]?) :
    st_starts_with t needle =
      .ok (1, { t with position := t.position + strlen needle + 1 }) := by
  have hcmp : strncmp ((t.string.drop t.position).take (strlen needle + 1) ++ [0])
      (needle ++ [0]) (strlen needle) = .ok 0 := by
    apply strncmp_eq
    intro i hi
    obtain ⟨c, hc, hc0⟩ := strlen_get needle i hi
    refine ⟨c, ?_, ?_, hc0⟩
    · rw [getElem?_take_drop_append _ _ _ _ _ (by omega) (by have := hmem.1; omega), heq i hi, hc]
    · rw [needle_getElem? needle i hi, hc]
  rw [st_starts_with_compare t needle hmem hint hfit, hcmp]
  simp

theorem st_starts_with_mismatch (t : StringTokenizer) (needle : List Int) (hmem : Allocated t)
    (hint : strlen needle ≤ 2147483647) (hfit : t.position + strlen needle ≤ t.length)
    (hne : ∃ i, i < strlen needle ∧ t.string[t.position + i]? ≠ needle[i]?) :
    st_starts_with t needle = .ok (0, t) := by
  have hcmp : ∃ r, strncmp ((t.string.drop t.position).take (strlen needle + 1) ++ [0])
      (needle ++ [0]) (strlen needle) = .ok r ∧ r ≠ 0 := by
    apply strncmp_ne
    · intro i hi
      obtain ⟨c, hc, hc0⟩ := strlen_get needle i hi
      refine ⟨?_, c, ?_, hc0⟩
      · rw [getElem?_take_drop_append _ _ _ _ _ (by omega) (by have := hmem.1; omega)]
        have : t.position + i < t.string.length := by have := hmem.1; omega
        exact ⟨_, List.getElem?_eq_getElem this⟩
      · rw [needle_getElem? needle i hi, hc]
    · obtain ⟨i, hi, hne⟩ := hne
      refine ⟨i, hi, ?_⟩
      rw [getElem?_take_drop_append _ _ _ _ _ (by omega) (by have := hmem.1; omega),
        needle_getElem? needle i hi]
      exact hne
  obtain ⟨r, hr, hr0⟩ := hcmp
  rw [st_starts_with_compare t needle hmem hint hfit, hr]
  simp [hr0]

theorem st_starts_with_false_frame (t : StringTokenizer) (needle : List Int)
    (t1 : StringTokenizer) (h : st_starts_with t needle = .ok (0, t1)) : t1 = t := by
  unfold st_starts_with at h
  simp only at h
  cases hs : st_slice_string t (toInt (strlen needle)) with
  | error e => rw [hs] at h; cases h
  | ok res =>
    obtain ⟨r, t2⟩ := res
    have hframe := st_slice_string_frame t _ r t2 hs
    rw [hs] at h
    cases r with
    | none =>
      simp only at h
      cases h
      exact hframe
    | some e =>
      simp only at h
      cases hc : strncmp e.bytes (needle ++ [0]) (strlen needle) with
      | error e => rw [hc] at h; cases h
      | ok r =>
        rw [hc] at h
        by_cases hr : r = 0
        · simp [hr] at h
        · simp only [ne_eq, hr, not_false_eq_true, if_true] at h
          cases h
          exact hframe

/-- C1 (as the code behaves): when the bytes at the cursor equal the needle, `st_starts_with`
reports true, and the cursor ends one byte beyond the matched text, at the old position plus
`strlen needle + 1` (the inclusive copy loop of `st_slice_string` steps once more). -/
theorem st_starts_with_true_position (t : StringTokenizer) (needle : List Int)
    (hmem : Allocated t) (hint : strlen needle ≤ 2147483647)
    (hfit : t.position + strlen needle ≤ t.length)
    (heq : ∀ i, i < strlen needle → t.string[t.position + i]? = needle[i]?) :
    ∃ t1, st_starts_with t needle = .ok (1, t1) ∧
      t1.position = t.position + strlen needle + 1 ∧
      t1.position ≠ t.position + strlen needle :=
  ⟨_, st_starts_with_match t needle hmem hint hfit heq, rfl, by simp⟩

/-- On `"truefalse"` at 0 with needle `"true"` the call reports true and the cursor ends at
index 5. -/
theorem st_starts_with_true_position_witness :
    st_starts_with trueFalse (chars "true") = .ok (1, ofText "truefalse" 5) ∧
    ∃ t1, st_starts_with trueFalse (chars "true") = .ok (1, t1) ∧
      t1.position = trueFalse.position + strlen (chars "true") + 1 ∧
      t1.position ≠ trueFalse.position + strlen (chars "true") :=
  ⟨by decide, st_starts_with_true_position trueFalse (chars "true") (by decide) (by decide)
    (by decide) (by decide)⟩

/-- C2: a call of `st_starts_with` that reports false leaves the tokenizer (position, length,
incremental factor and buffer) exactly as it was; and false is what is reported both when
fewer than `strlen needle` bytes remain and when a byte at the cursor differs from the
needle. -/
theorem st_starts_with_false_restores (t : StringTokenizer) (needle : List Int)
    (hpos : t.position ≤ t.length) :
    (∀ t1, st_starts_with t needle = .ok (0, t1) → t1 = t) ∧
    (t.length < SIZE → strlen needle ≤ 2147483647 → t.length - t.position < strlen needle →
      st_starts_with t needle = .ok (0, t)) ∧
    (Allocated t → strlen needle ≤ 2147483647 → t.position + strlen needle ≤ t.length →
      (∃ i, i < strlen needle ∧ t.string[t.position + i]? ≠ needle[i]?) →
      st_starts_with t needle = .ok (0, t)) :=
  ⟨fun t1 h => st_starts_with_false_frame t needle t1 h,
   fun hcap hint h => st_starts_with_short t needle hpos hcap hint h,
   fun hmem hint hfit hne => st_starts_with_mismatch t needle hmem hint hfit hne⟩

/-- On `"falsetrue"` at 0 the needle `"true"` is reported absent and the tokenizer is
unchanged. -/
theorem st_starts_with_false_restores_witness :
    falseTrue.position ≤ falseTrue.length ∧
    st_starts_with falseTrue (chars "true") = .ok (0, falseTrue) :=
  ⟨by decide,
   (st_starts_with_false_restores falseTrue (chars "true") (by decide)).2.2 (by decide)
     (by decide) (by decide) ⟨0, by decide, by decide⟩⟩

/-- C3 (as the code behaves): for `0 ≤ length ≤ capacity - position`, `st_slice_string` stores
`length + 1` bytes of the buffer (those at `position .. position + length`, bounds included)
into a block of `length + 1` bytes, then the terminator, and leaves the cursor at the old
position plus `length + 1`. -/
theorem st_slice_string_copies_one_more (t : StringTokenizer) (length : Int)
    (h0 : 0 ≤ length) (hmax : length ≤ INT_MAX)
    (hfit : length ≤ (t.length : Int) - t.position) (hmem : Allocated t) :
    st_slice_string t length =
      .ok (some { alloc := length.toNat + 1,
                  bytes := (t.string.drop t.position).take (length.toNat + 1) ++ [0] },
           { t with position := t.position + length.toNat + 1 }) := by
  obtain ⟨n, rfl⟩ := Int.eq_ofNat_of_zero_le h0
  simp only [INT_MAX] at hmax
  exact st_slice_string_eval t n (by omega) (by omega) hmem

/-- On `"truefalse"` at 0 a slice of length 4 is the five bytes `"truef"` and the cursor ends
at index 5. -/
theorem st_slice_string_copies_one_more_witness :
    st_slice_string trueFalse 4 =
      .ok (some { alloc := 5, bytes := chars "truef" ++ [0] }, ofText "truefalse" 5) := by
  have h := st_slice_string_copies_one_more trueFalse 4 (by decide) (by decide) (by decide)
    (by decide)
  rw [h]
  decide

/-- C4: when fewer than `length` bytes remain between the cursor and `length` of the buffer,
`st_slice_string` returns `NULL` and leaves the tokenizer unchanged; a negative `length` has
the same effect (it is compared as a `size_t`) for every buffer shorter than
`2 ^ 64 - 2 ^ 31` bytes. -/
theorem st_slice_string_no_match (t : StringTokenizer) (length : Int)
    (hpos : t.position ≤ t.length) (hcap : t.length < SIZE)
    (hmin : INT_MIN ≤ length) (hmax : length ≤ INT_MAX)
    (h : (t.length : Int) - t.position < length ∨
      (length < 0 ∧ t.length - t.position < 18446744071562067968)) :
    st_slice_string t length = .ok (none, t) :=
  st_slice_string_short t length hpos hcap hmin hmax h

/-- On `"truefalse"` at index 4 five bytes remain: a slice of 6 is refused, and so is a slice
of -1. -/
theorem st_slice_string_no_match_witness :
    st_slice_string (ofText "truefalse" 4) 6 = .ok (none, ofText "truefalse" 4) ∧
    st_slice_string (ofText "truefalse" 4) (-1) = .ok (none, ofText "truefalse" 4) :=
  ⟨st_slice_string_no_match (ofText "truefalse" 4) 6 (by decide) (by decide) (by decide)
     (by decide) (Or.inl (by decide)),
   st_slice_string_no_match (ofText "truefalse" 4) (-1) (by decide) (by decide) (by decide)
     (by decide) (Or.inr (by decide))⟩

/-! ## `st_sub_string` -/

theorem st_sub_string_eval (t : StringTokenizer) (start_delim end_delim : Int) (q : Nat)
    (hstart : t.string[t.position]? = some start_delim) (hq : t.position < q)
    (hint : q ≤ 2147483647)
    (hrun : ∀ j, j < q → t.position < j →
      ∃ b, t.string[j]? = some b ∧ b ≠ 0 ∧ b ≠ end_delim)
    (hend : ∃ b, t.string[q]? = some b ∧ (b = 0 ∨ b = end_delim)) :
    st_sub_string t start_delim end_delim =
      .ok (some { alloc := q - t.position,
                  bytes := (t.string.drop (t.position + 1)).take (q - (t.position + 1)) ++ [0] },
           { t with position := q }) := by
  obtain ⟨bq, hbq, hbq2⟩ := hend
  have hqlen : q < t.string.length := (List.getElem?_eq_some_iff.mp hbq).1
  have hmod : (t.position + 1) % SIZE = t.position + 1 :=
    Nat.mod_eq_of_lt (by simp only [SIZE]; omega)
  obtain ⟨b1, hb1⟩ : ∃ b, t.string[t.position + 1]? = some b :=
    ⟨_, List.getElem?_eq_getElem (by omega)⟩
  have hscan := scan_loop_spec t.string (fun c => c ≠ 0 ∧ c ≠ end_delim)
    (q - (t.position + 1)) (t.string.length + 1) (t.position + 1) b1 hb1
    (fun j hj => by
      obtain ⟨b, hb, h0, he⟩ := hrun (t.position + 1 + j) (by omega) (by omega)
      exact ⟨b, hb, by simp [h0, he]⟩)
    (by
      refine ⟨bq, ?_, ?_⟩
      · rw [show t.position + 1 + (q - (t.position + 1)) = q by omega]; exact hbq
      · rcases hbq2 with h | h <;> simp [h])
    (by simp only [SIZE]; omega) (by omega)
  rw [show t.position + 1 + (q - (t.position + 1)) = q by omega] at hscan
  have hcopy := copy_loop_spec t.string (fun i => i < q) q hint (by omega) (by simp)
    (q - (t.position + 1)) (t.string.length + 1) (t.position + 1) [] (by omega)
    (fun i _ hi => by simp [hi]) (by omega)
  rw [← toInt_of_le (t.position + 1) (by omega)] at hcopy
  have hlen : ((q + SIZE - (t.position + 1)) % SIZE + 1) % SIZE = q - t.position := by
    simp only [SIZE]; omega
  simp only [st_sub_string, readAt_ok _ _ _ hstart, ne_eq, not_true_eq_false, if_false, hmod,
    readAt_ok _ _ _ hb1, hscan, hcopy, hlen, List.nil_append]

/-- C6: when the byte under the cursor is not `start_delim`, `st_sub_string` returns `NULL`
and leaves the tokenizer (position, length, incremental factor, buffer) unchanged. -/
theorem st_sub_string_no_match (t : StringTokenizer) (start_delim end_delim b : Int)
    (hb : t.string[t.position]? = some b) (hne : b ≠ start_delim) :
    st_sub_string t start_delim end_delim = .ok (none, t) := by
  simp only [st_sub_string, readAt_ok _ _ _ hb, ne_eq, hne, not_false_eq_true, if_true]

/-- On `"(42)"` with the cursor on `4` (index 1) the extraction between `(` and `)` is
refused and the tokenizer is unchanged. -/
theorem st_sub_string_no_match_witness :
    st_sub_string (ofText "(42)" 1) 40 41 = .ok (none, ofText "(42)" 1) :=
  st_sub_string_no_match (ofText "(42)" 1) 40 41 52 (by decide) (by decide)

/-- Delimited extraction within the range of `int`: with `q` the first index after the cursor
that holds `end_delim` or a NUL, and `q ≤ INT_MAX`, `st_sub_string` returns the bytes of
`position + 1 .. q - 1`, terminated inside the block it allocates, and leaves the cursor on
`q`. -/
theorem st_sub_string_within_int (t : StringTokenizer) (start_delim end_delim : Int) (q : Nat)
    (hstart : t.string[t.position]? = some start_delim) (hq : t.position < q)
    (hint : q ≤ 2147483647)
    (hrun : ∀ j, j < q → t.position < j →
      ∃ b, t.string[j]? = some b ∧ b ≠ 0 ∧ b ≠ end_delim)
    (hend : ∃ b, t.string[q]? = some b ∧ (b = 0 ∨ b = end_delim)) :
    ∃ r, st_sub_string t start_delim end_delim = .ok (some r, { t with position := q }) ∧
      r.text = (t.string.drop (t.position + 1)).take (q - (t.position + 1)) ∧
      r.bytes.length ≤ r.alloc := by
  refine ⟨_, st_sub_string_eval t start_delim end_delim q hstart hq hint hrun hend, ?_, ?_⟩
  · unfold CBuffer.text
    simp only
    rw [List.takeWhile_append_of_pos]
    · simp
    · intro b hb
      have hb2 := List.mem_of_mem_take hb
      obtain ⟨i, hi, hib⟩ := List.getElem_of_mem hb
      have hi2 : i < q - (t.position + 1) := by
        simp [List.length_take] at hi; omega
      have := List.getElem?_eq_getElem hi
      rw [List.getElem?_take_of_lt hi2, List.getElem?_drop, hib] at this
      obtain ⟨b', hb', h0, _⟩ := hrun (t.position + 1 + i) (by omega) (by omega)
      rw [hb'] at this
      cases this
      simp [h0]
  · simp [List.length_take, List.length_drop]
    omega

/-- On `"(42)"` at 0 with `(` and `)` the result is `"42"` and the cursor is on `)`. -/
theorem st_sub_string_within_int_witness :
    ∃ r, st_sub_string (ofText "(42)" 0) 40 41 = .ok (some r, ofText "(42)" 3) ∧
      r.text = chars "42" ∧ r.bytes.length ≤ r.alloc := by
  obtain ⟨r, h, htext, hfit⟩ := st_sub_string_within_int (ofText "(42)" 0) 40 41 3 (by decide)
    (by decide) (by decide) (by decide) (by decide)
  exact ⟨r, h, htext.trans (by decide), hfit⟩

theorem getElem?_replicate_append (n : Nat) (a : Int) (l : List Int) (k : Nat) :
    (List.replicate n a ++ l)[n + k]? = l[k]? := by
  rw [List.getElem?_append_right (by simp)]
  simp

theorem length_replicate_append (n : Nat) (a : Int) (l : List Int) :
    (List.replicate n a ++ l).length = n + l.length := by
  rw [List.length_append, List.length_replicate]

theorem copy_loop_exit (s : List Int) (test : Nat → Bool) (fuel : Nat) (i : Int)
    (acc : List Int) (h : test (toSizeT i) = false) :
    copy_loop s test (fuel + 1) i acc = .ok acc := by
  simp [copy_loop, h]

theorem st_sub_string_steps (t : StringTokenizer) (start_delim end_delim b1 : Int) (q : Nat)
    (copied : List Int) (hstart : t.string[t.position]? = some start_delim)
    (h1 : t.string[(t.position + 1) % SIZE]? = some b1)
    (hscan : scan_loop t.string (fun c => c ≠ 0 ∧ c ≠ end_delim) (t.string.length + 1)
      ((t.position + 1) % SIZE) b1 = .ok q)
    (hcopy : copy_loop t.string (fun i => i < q) (t.string.length + 1)
      (toInt ((t.position + 1) % SIZE)) [] = .ok copied) :
    st_sub_string t start_delim end_delim =
      .ok (some { alloc := ((q + SIZE - (t.position + 1) % SIZE) % SIZE + 1) % SIZE,
                  bytes := copied ++ [0] },
           { t with position := q }) := by
  simp only [st_sub_string, readAt_ok _ _ _ hstart, ne_eq, not_true_eq_false, if_false,
    readAt_ok _ _ _ h1, hscan, hcopy]

/-- C5 beyond the range of `int`: on a NUL-terminated text of `2 ^ 31` blanks followed by
`(a)`, with the cursor on `(`, `st_sub_string` finds the closing `)` at index `2 ^ 31 + 2`,
but the `int` index of its copy loop starts at `-2147483647`, the loop body never runs, and
the returned string is empty instead of `a`. -/
theorem st_sub_string_past_int_max :
    NulTerminated pastIntMax ∧
    pastIntMax.string[pastIntMax.position]? = some 40 ∧
    pastIntMax.string[pastIntMax.position + 1]? = some 97 ∧
    pastIntMax.string[pastIntMax.position + 2]? = some 41 ∧
    st_sub_string pastIntMax 40 41 =
      .ok (some { alloc := 2, bytes := [0] }, { pastIntMax with position := 2147483650 }) := by
  have h0 : pastIntMax.string[2147483648]? = some 40 :=
    getElem?_replicate_append 2147483648 32 [40, 97, 41, 0] 0
  have h1 : pastIntMax.string[2147483649]? = some 97 :=
    getElem?_replicate_append 2147483648 32 [40, 97, 41, 0] 1
  have h2 : pastIntMax.string[2147483650]? = some 41 :=
    getElem?_replicate_append 2147483648 32 [40, 97, 41, 0] 2
  have h3 : pastIntMax.string[2147483651]? = some 0 :=
    getElem?_replicate_append 2147483648 32 [40, 97, 41, 0] 3
  have hlen : pastIntMax.string.length = 2147483648 + 4 :=
    length_replicate_append 2147483648 32 [40, 97, 41, 0]
  refine ⟨⟨h3, by decide⟩, h0, h1, h2, ?_⟩
  have hscan : scan_loop pastIntMax.string (fun c => c ≠ 0 ∧ c ≠ 41)
      (pastIntMax.string.length + 1) 2147483649 97 = .ok 2147483650 :=
    scan_loop_spec pastIntMax.string (fun c => c ≠ 0 ∧ c ≠ 41) 1
      (pastIntMax.string.length + 1) 2147483649 97 h1
      (fun j hj => by
        obtain rfl : j = 0 := by omega
        exact ⟨97, h1, by decide⟩)
      ⟨41, h2, by decide⟩ (by decide) (by omega)
  have hcopy : copy_loop pastIntMax.string (fun i => i < 2147483650)
      (pastIntMax.string.length + 1) (toInt 2147483649) [] = .ok [] :=
    copy_loop_exit _ _ _ _ _ (by decide)
  exact st_sub_string_steps pastIntMax 40 41 97 2147483650 [] h0 h1 hscan hcopy

/-! ## `st_extract_numbers` -/

theorem takeWhile_length_get (f : Int → Bool) (l : List Int) :
    ∀ j, j < (l.takeWhile f).length → ∃ b, l[j]? = some b ∧ f b = true := by
  induction l with
  | nil => intro j hj; simp at hj
  | cons a l ih =>
    intro j hj
    by_cases ha : f a = true
    · rw [List.takeWhile_cons_of_pos ha] at hj
      cases j with
      | zero => exact ⟨a, by simp, ha⟩
      | succ j => simpa using ih j (by simpa using hj)
    · rw [List.takeWhile_cons_of_neg ha] at hj
      simp at hj

theorem takeWhile_length_stop (f : Int → Bool) (l : List Int) :
    ∀ (m : Nat) (b : Int), l[m]? = some b → f b = false →
      (l.takeWhile f).length ≤ m ∧
        ∃ c, l[(l.takeWhile f).length]? = some c ∧ f c = false := by
  induction l with
  | nil => intro m b h; simp at h
  | cons a l ih =>
    intro m b h hf
    by_cases ha : f a = true
    · rw [List.takeWhile_cons_of_pos ha]
      cases m with
      | zero =>
        simp at h
        subst h
        rw [ha] at hf
        cases hf
      | succ m =>
        obtain ⟨h1, c, hc, hfc⟩ := ih m b (by simpa using h) hf
        exact ⟨by simp; omega, c, by simpa using hc, hfc⟩
    · rw [List.takeWhile_cons_of_neg ha]
      exact ⟨by simp, a, by simp, by simpa using ha⟩

theorem numeric_run_bounds (t : StringTokenizer) (hnul : NulTerminated t)
    (hpos : t.position ≤ t.length) :
    t.position + (numeric_run t).length ≤ t.length ∧
    (∀ j, j < (numeric_run t).length →
      ∃ b, t.string[t.position + j]? = some b ∧ is_numeric b = 1) ∧
    ∃ c, t.string[t.position + (numeric_run t).length]? = some c ∧ is_numeric c ≠ 1 := by
  have hterm : (t.string.drop t.position)[t.length - t.position]? = some 0 := by
    rw [List.getElem?_drop, show t.position + (t.length - t.position) = t.length by omega]
    exact hnul.1
  obtain ⟨h1, c, hc, hfc⟩ := takeWhile_length_stop (fun c => is_numeric c = 1)
    (t.string.drop t.position) _ 0 hterm (by decide)
  refine ⟨by unfold numeric_run; omega, ?_, c, ?_, by simpa using hfc⟩
  · intro j hj
    obtain ⟨b, hb, hfb⟩ := takeWhile_length_get (fun c => is_numeric c = 1)
      (t.string.drop t.position) j hj
    exact ⟨b, by rwa [List.getElem?_drop] at hb, by simpa using hfb⟩
  · rwa [List.getElem?_drop] at hc

theorem is_numeric_nonzero (b : Int) (h : is_numeric b = 1) : b ≠ 0 := by
  intro h0
  subst h0
  revert h
  decide

theorem st_extract_numbers_scan (t : StringTokenizer) (hnul : NulTerminated t)
    (hpos : t.position ≤ t.length) :
    ∃ token, t.string[t.position]? = some token ∧
      scan_loop t.string (fun c => c ≠ 0 ∧ is_numeric c = 1) (t.string.length + 1)
        t.position token = .ok (t.position + (numeric_run t).length) := by
  obtain ⟨hle, hrun, c, hc, hcn⟩ := numeric_run_bounds t hnul hpos
  have hclen : t.position + (numeric_run t).length < t.string.length :=
    (List.getElem?_eq_some_iff.mp hc).1
  obtain ⟨token, htok⟩ : ∃ b, t.string[t.position]? = some b :=
    ⟨_, List.getElem?_eq_getElem (by omega)⟩
  refine ⟨token, htok, ?_⟩
  apply scan_loop_spec _ _ _ _ _ _ htok
  · intro j hj
    obtain ⟨b, hb, hbn⟩ := hrun j hj
    exact ⟨b, hb, by simp [hbn, is_numeric_nonzero b hbn]⟩
  · exact ⟨c, hc, by simp [hcn]⟩
  · have := hnul.2; omega
  · omega

theorem st_extract_numbers_eval (t : StringTokenizer) (hnul : NulTerminated t)
    (hpos : t.position ≤ t.length) (hint : t.length < 2147483647)
    (hrun : 0 < (numeric_run t).length) :
    st_extract_numbers t =
      .ok (some { alloc := (numeric_run t).length + 1,
                  bytes := (t.string.drop t.position).take ((numeric_run t).length + 1) ++ [0] },
           { t with position := t.position + (numeric_run t).length - 1 }) := by
  obtain ⟨hle, _, c, hc, _⟩ := numeric_run_bounds t hnul hpos
  have hclen : t.position + (numeric_run t).length < t.string.length :=
    (List.getElem?_eq_some_iff.mp hc).1
  obtain ⟨token, htok, hscan⟩ := st_extract_numbers_scan t hnul hpos
  have hcopy := copy_loop_spec t.string
    (fun i => i ≤ t.position + (numeric_run t).length)
    (t.position + (numeric_run t).length + 1) (by omega) (by omega) (by simp)
    ((numeric_run t).length + 1) (t.string.length + 1) t.position [] (by omega)
    (fun i _ hi => by simp; omega) (by omega)
  rw [← toInt_of_le t.position (by omega)] at hcopy
  have hlen : (t.position + (numeric_run t).length + SIZE - t.position) % SIZE
      = (numeric_run t).length := by
    simp only [SIZE]; omega
  have hdec : (t.position + (numeric_run t).length + SIZE - 1) % SIZE
      = t.position + (numeric_run t).length - 1 := by
    simp only [SIZE]; omega
  have hal : ((numeric_run t).length + 1) % SIZE = (numeric_run t).length + 1 :=
    Nat.mod_eq_of_lt (by simp only [SIZE]; omega)
  have hnz : ¬ ((numeric_run t).length = 0) := by omega
  simp only [st_extract_numbers, readAt_ok _ _ _ htok, hscan, hlen, hdec, hnz, if_false,
    hcopy, hal, List.nil_append]

theorem st_extract_numbers_position (t : StringTokenizer) (hnul : NulTerminated t)
    (hpos : t.position ≤ t.length) (hrun : 0 < (numeric_run t).length)
    (r : CBuffer) (t1 : StringTokenizer) (h : st_extract_numbers t = .ok (some r, t1)) :
    t1 = { t with position := t.position + (numeric_run t).length - 1 } := by
  obtain ⟨hle, _, c, hc, _⟩ := numeric_run_bounds t hnul hpos
  obtain ⟨token, htok, hscan⟩ := st_extract_numbers_scan t hnul hpos
  have hcap := hnul.2
  have hlen : (t.position + (numeric_run t).length + SIZE - t.position) % SIZE
      = (numeric_run t).length := by
    simp only [SIZE] at *; omega
  have hdec : (t.position + (numeric_run t).length + SIZE - 1) % SIZE
      = t.position + (numeric_run t).length - 1 := by
    simp only [SIZE] at *; omega
  have hnz : ¬ ((numeric_run t).length = 0) := by omega
  simp only [st_extract_numbers, readAt_ok _ _ _ htok, hscan, hlen, hdec, hnz, if_false] at h
  cases hc : copy_loop t.string (fun i => i ≤ t.position + (numeric_run t).length)
      (t.string.length + 1) (toInt t.position) [] with
  | error e => rw [hc] at h; cases h
  | ok copied => rw [hc] at h; cases h; rfl

theorem take_length_takeWhile (f : Int → Bool) (l : List Int) :
    l.take (l.takeWhile f).length = l.takeWhile f := by
  induction l with
  | nil => rfl
  | cons a l ih =>
    by_cases ha : f a = true
    · rw [List.takeWhile_cons_of_pos ha, List.length_cons, List.take_succ_cons, ih]
    · rw [List.takeWhile_cons_of_neg ha]
      rfl

theorem take_succ_numeric_run (t : StringTokenizer) (b : Int)
    (hb : t.string[t.position + (numeric_run t).length]? = some b) :
    (t.string.drop t.position).take ((numeric_run t).length + 1) = numeric_run t ++ [b] := by
  rw [List.take_succ, List.getElem?_drop, hb]
  unfold numeric_run
  rw [take_length_takeWhile]
  rfl

/-- C7 (as the code behaves): on a NUL-terminated buffer with a numeric run of `n ≥ 1` bytes at
the cursor, `st_extract_numbers` stores the run and then the byte that follows it, which is
not in the numeric set (`n + 1` bytes, from the inclusive bound of the copy loop), and then
the terminator, into a block of `n + 1` bytes. -/
theorem st_extract_numbers_copies_one_more (t : StringTokenizer) (hnul : NulTerminated t)
    (hpos : t.position ≤ t.length) (hint : t.length < 2147483647)
    (hrun : 0 < (numeric_run t).length) :
    ∃ b r t1, t.string[t.position + (numeric_run t).length]? = some b ∧ is_numeric b ≠ 1 ∧
      st_extract_numbers t = .ok (some r, t1) ∧
      r.bytes = numeric_run t ++ [b, 0] ∧ r.alloc = (numeric_run t).length + 1 := by
  obtain ⟨_, _, c, hc, hcn⟩ := numeric_run_bounds t hnul hpos
  refine ⟨c, _, _, hc, hcn, st_extract_numbers_eval t hnul hpos hint hrun, ?_, rfl⟩
  simp only
  rw [take_succ_numeric_run t c hc]
  simp

/-- On `"-12.5e3abc"` at 0 the returned string is `"-12.5e3a"`: the run `"-12.5e3"` and the
`a` that follows it. -/
theorem st_extract_numbers_copies_one_more_witness :
    (st_extract_numbers numberThenText =
      .ok (some { alloc := 8, bytes := chars "-12.5e3a" ++ [0] }, ofText "-12.5e3abc" 6) ∧
     numeric_run numberThenText = chars "-12.5e3") ∧
    ∃ b r t1, numberThenText.string[numberThenText.position +
        (numeric_run numberThenText).length]? = some b ∧ is_numeric b ≠ 1 ∧
      st_extract_numbers numberThenText = .ok (some r, t1) ∧
      r.bytes = numeric_run numberThenText ++ [b, 0] ∧
      r.alloc = (numeric_run numberThenText).length + 1 :=
  ⟨by decide, st_extract_numbers_copies_one_more numberThenText (by decide) (by decide)
    (by decide) (by decide)⟩

/-- C8: on a NUL-terminated buffer whose numeric run at the cursor has `n ≥ 1` bytes, every
call of `st_extract_numbers` that returns a string leaves the cursor at the old position
plus `n - 1`, on the last byte of the run; and the call does return a string whenever the
buffer is shorter than `INT_MAX` bytes. -/
theorem st_extract_numbers_cursor_on_last (t : StringTokenizer) (hnul : NulTerminated t)
    (hpos : t.position ≤ t.length) (hrun : 1 ≤ (numeric_run t).length) :
    (∀ r t1, st_extract_numbers t = .ok (some r, t1) →
      t1.position = t.position + (numeric_run t).length - 1 ∧
      t1.position + 1 = t.position + (numeric_run t).length) ∧
    (t.length < 2147483647 →
      ∃ r, st_extract_numbers t =
        .ok (some r, { t with position := t.position + (numeric_run t).length - 1 })) := by
  refine ⟨fun r t1 h => ?_, fun hint => ⟨_, st_extract_numbers_eval t hnul hpos hint hrun⟩⟩
  rw [st_extract_numbers_position t hnul hpos hrun r t1 h]
  refine ⟨rfl, ?_⟩
  show t.position + (numeric_run t).length - 1 + 1 = t.position + (numeric_run t).length
  omega

/-- On `"-12.5e3abc"` from 0 the run has 7 bytes and the cursor ends at index 6, on the final
`3`. -/
theorem st_extract_numbers_cursor_on_last_witness :
    (numeric_run numberThenText).length = 7 ∧
    ∃ r, st_extract_numbers numberThenText =
      .ok (some r, { numberThenText with
        position := numberThenText.position + (numeric_run numberThenText).length - 1 }) ∧
      numberThenText.position + (numeric_run numberThenText).length - 1 = 6 ∧
      numberThenText.string[6]? = some 51 := by
  obtain ⟨r, hr⟩ := (st_extract_numbers_cursor_on_last numberThenText (by decide) (by decide)
    (by decide)).2 (by decide)
  exact ⟨by decide, r, hr, by decide, by decide⟩

/-! ## `st_next_token` -/

theorem next_token_loop_spec (s : List Int) (length : Nat) :
    ∀ (k fuel p : Nat),
      (∀ j, j < k → ∃ b, s[p + 1 + j]? = some b ∧ b ≤ 32 ∧ p + 1 + j ≤ length) →
      (s[p + 1 + k]? = none ∨ ∃ b, s[p + 1 + k]? = some b ∧ ¬ (b ≤ 32 ∧ p + 1 + k ≤ length)) →
      p + 1 + k < SIZE → k < fuel →
      next_token_loop s length fuel p =
        match s[p + 1 + k]? with
        | none => .error .outOfBounds
        | some _ => .ok (p + 1 + k) := by
  intro k
  induction k with
  | zero =>
    intro fuel p _ hlast hsize hfuel
    have hmod : (p + 1) % SIZE = p + 1 := Nat.mod_eq_of_lt (by omega)
    cases fuel with
    | zero => omega
    | succ f =>
      rcases hlast with h | ⟨b, h, hb⟩
      · simp only [Nat.add_zero] at h
        simp [next_token_loop, hmod, readAt, h]
      · simp only [Nat.add_zero] at h hb
        simp [next_token_loop, hmod, readAt, h, hb]
  | succ k ih =>
    intro fuel p hrun hlast hsize hfuel
    have hmod : (p + 1) % SIZE = p + 1 := Nat.mod_eq_of_lt (by omega)
    obtain ⟨b, hb, hb32, hble⟩ := hrun 0 (by omega)
    simp only [Nat.add_zero] at hb hble
    cases fuel with
    | zero => omega
    | succ f =>
      have hrec := ih f (p + 1)
        (fun j hj => by
          have := hrun (j + 1) (by omega)
          rwa [show p + 1 + (j + 1) = p + 1 + 1 + j by omega] at this)
        (by rwa [show p + 1 + (k + 1) = p + 1 + 1 + k by omega] at hlast)
        (by omega) (by omega)
      rw [show p + 1 + 1 + k = p + 1 + (k + 1) by omega] at hrec
      simp only [next_token_loop, hmod, readAt_ok s (p + 1) b hb, hb32, hble, and_self,
        if_true, hrec]

/-- C9 (as the code behaves): on a NUL-terminated buffer in which every byte after the
cursor and before index `length` is at most 32, `st_next_token` does not stop at `length`:
the terminator counts as a blank and `position <= length` still holds there, so the loop
steps to `length + 1` and reads that byte, past the terminator. The call ends with the
cursor at `length + 1` when the block has such a byte and is an out-of-bounds read
otherwise. -/
theorem st_next_token_runs_past_length (t : StringTokenizer) (hnul : NulTerminated t)
    (hpos : t.position < t.length) (hcap : t.length + 1 < SIZE)
    (hblank : ∀ j, j < t.length → t.position < j → ∃ b, t.string[j]? = some b ∧ b ≤ 32) :
    st_next_token t ≠ .ok { t with position := t.length } ∧
    st_next_token t =
      match t.string[t.length + 1]? with
      | none => .error .outOfBounds
      | some _ => .ok { t with position := t.length + 1 } := by
  have hlen : t.length < t.string.length := (List.getElem?_eq_some_iff.mp hnul.1).1
  have hloop := next_token_loop_spec t.string t.length (t.length - t.position)
    (t.string.length + 1) t.position
    (fun j hj => by
      by_cases hj2 : t.position + 1 + j = t.length
      · exact ⟨0, by rw [hj2]; exact hnul.1, by decide, by omega⟩
      · obtain ⟨b, hb, hb32⟩ := hblank (t.position + 1 + j) (by omega) (by omega)
        exact ⟨b, hb, hb32, by omega⟩)
    (by
      rw [show t.position + 1 + (t.length - t.position) = t.length + 1 by omega]
      cases h : t.string[t.length + 1]? with
      | none => exact Or.inl rfl
      | some b => exact Or.inr ⟨b, rfl, by omega⟩)
    (by omega) (by omega)
  rw [show t.position + 1 + (t.length - t.position) = t.length + 1 by omega] at hloop
  have heval : st_next_token t =
      match t.string[t.length + 1]? with
      | none => .error .outOfBounds
      | some _ => .ok { t with position := t.length + 1 } := by
    simp only [st_next_token, hloop]
    cases t.string[t.length + 1]? <;> rfl
  refine ⟨?_, heval⟩
  rw [heval]
  cases t.string[t.length + 1]? with
  | none => simp
  | some b =>
    simp only [ne_eq, Outcome.ok.injEq, StringTokenizer.mk.injEq, true_and, and_true]
    omega

/-- On `"a "` at 0 (capacity 2, terminator at index 2) the call reads index 3, outside the
three-byte block. -/
theorem st_next_token_runs_past_length_witness :
    st_next_token (ofText "a " 0) = .error .outOfBounds ∧
    st_next_token (ofText "a " 0) ≠ .ok { ofText "a " 0 with position := 2 } :=
  ⟨by decide, (st_next_token_runs_past_length (ofText "a " 0) (by decide) (by decide)
    (by decide) (by decide)).1⟩

/-- C10 (as the code behaves): three cursor operations started from a state with
`position ≤ length` end with `position > length`: `st_slice_string` of the last five bytes
of `"truefalse"` ends at 10 (capacity 9); `st_next_token` on `"a"` held in a five-byte block
ends at 2 (capacity 1); `st_extract_numbers` on `"abc"` at 0, where no byte is numeric,
decrements the cursor from 0 to `2 ^ 64 - 1` (capacity 3). -/
theorem position_le_length_not_preserved :
    ((ofText "truefalse" 4).position ≤ (ofText "truefalse" 4).length ∧
      st_slice_string (ofText "truefalse" 4) 5 =
        .ok (some { alloc := 6, bytes := chars "false" ++ [0, 0] }, ofText "truefalse" 10) ∧
      ¬ (ofText "truefalse" 10).position ≤ (ofText "truefalse" 10).length) ∧
    (st_next_token { string := [97, 0, 0, 0, 0], length := 1, position := 0,
                     incremental_factor := 0 } =
      .ok { string := [97, 0, 0, 0, 0], length := 1, position := 2, incremental_factor := 0 } ∧
      ¬ (2 : Nat) ≤ 1) ∧
    ((ofText "abc" 0).position ≤ (ofText "abc" 0).length ∧
      st_extract_numbers (ofText "abc" 0) =
        .ok (none, ofText "abc" 18446744073709551615) ∧
      ¬ (ofText "abc" 18446744073709551615).position ≤
        (ofText "abc" 18446744073709551615).length) := by
  decide


/-! ## The allocator -/

theorem realloc_none (block : List Int) (n : Nat) : realloc block n none = none := by
  unfold realloc
  split <;> rfl

theorem realloc_some (block : List Int) (n : Nat) (heap : Heap) (s : List Int)
    (h : realloc block n heap = some s) :
    n ≤ PTRDIFF_MAX ∧ s.length = n ∧ ∀ i, i < n → i < block.length → s[i]? = block[i]? := by
  unfold realloc at h
  split at h
  · cases h
  · rename_i hn
    cases heap with
    | none => cases h
    | some fresh =>
      simp only [Option.some.injEq] at h
      subst h
      refine ⟨by omega, by simp, ?_⟩
      intro i hi hb
      simp [List.getElem?_map, List.getElem?_range hi, List.getElem?_eq_getElem hb]

/-! ## `st_expand_string` -/

theorem st_expand_string_eq (t : StringTokenizer) (size : Nat) (heap : Heap)
    (hgrow : ¬ (t.position + size) % SIZE < t.length) :
    st_expand_string t size heap =
      match realloc t.string ((t.length + max size t.incremental_factor) % SIZE) heap with
      | none => (0, t)
      | some s =>
        (1, { t with string := s,
                     length := (t.length + max size t.incremental_factor) % SIZE,
                     incremental_factor := max size t.incremental_factor }) := by
  have hmax : (if size > t.incremental_factor then size else t.incremental_factor)
      = max size t.incremental_factor := by
    split <;> omega
  simp only [st_expand_string, hgrow, if_false, hmax]

/-- When strictly more than `size` bytes remain after the cursor, `st_expand_string` reports
success and leaves the tokenizer unchanged. -/
theorem st_expand_string_noop (t : StringTokenizer) (size : Nat) (heap : Heap)
    (h : t.position + size < t.length) : st_expand_string t size heap = (1, t) := by
  have : (t.position + size) % SIZE < t.length := lt_of_le_of_lt (Nat.mod_le _ _) h
  simp only [st_expand_string, this, if_true]

/-- C11 (as the code behaves): when the request fits exactly (`position + size = length`) the
test `position + size < length` fails and `st_expand_string` goes on to `realloc`: it reports
failure when `realloc` fails, although the space suffices, and otherwise moves the buffer to
a block of `length + max size incremental_factor` bytes. -/
theorem st_expand_string_exact_fit (t : StringTokenizer) (size : Nat) (heap : Heap)
    (hfit : t.position + size = t.length) (hlen : t.length < SIZE) :
    st_expand_string t size none = (0, t) ∧
    st_expand_string t size heap =
      match realloc t.string ((t.length + max size t.incremental_factor) % SIZE) heap with
      | none => (0, t)
      | some s =>
        (1, { t with string := s,
                     length := (t.length + max size t.incremental_factor) % SIZE,
                     incremental_factor := max size t.incremental_factor }) := by
  have hgrow : ¬ (t.position + size) % SIZE < t.length := by
    rw [hfit, Nat.mod_eq_of_lt hlen]; omega
  refine ⟨?_, st_expand_string_eq t size heap hgrow⟩
  rw [st_expand_string_eq t size none hgrow, realloc_none]

/-- On a four-byte buffer with the cursor at 1, a request of 3 bytes (indices 1..3) fits
exactly; the call fails when `realloc` fails and otherwise grows the capacity to 8. -/
theorem st_expand_string_exact_fit_witness :
    (blank4 1).position + 3 = (blank4 1).length ∧
    st_expand_string (blank4 1) 3 none = (0, blank4 1) ∧
    st_expand_string (blank4 1) 3 nines =
      (1, { string := [32, 32, 32, 32, 0, 9, 9, 9], length := 8, position := 1,
            incremental_factor := 4 }) := by
  have h := st_expand_string_exact_fit (blank4 1) 3 nines (by decide) (by decide)
  exact ⟨by decide, h.1, by decide⟩

/-- C12 (counterexample): on a four-byte buffer with the cursor at 2, two bytes remain; a
request of `2 ^ 64 - 1` bytes makes `position + size` wrap around to 1, the test
`position + size < length` holds, and the call reports success with the capacity still 4. -/
theorem st_expand_string_wraps :
    (blank4 2).position ≤ (blank4 2).length ∧
    (blank4 2).length - (blank4 2).position < 18446744073709551615 ∧
    st_expand_string (blank4 2) 18446744073709551615 nines = (1, blank4 2) ∧
    (blank4 2).length ≠ 4 + max 18446744073709551615 (blank4 2).incremental_factor := by
  decide

/-- C12 (amended): when the remaining space does not cover `size` and
`length + max size incremental_factor` is below `2 ^ 64`, `st_expand_string` follows
`realloc`: if it fails, the call reports failure and the tokenizer is unchanged; if it
succeeds, the call reports success, the capacity is `length + max size incremental_factor`,
the growth step is that maximum, the cursor and the first `length` bytes are unchanged, and
at least `size` bytes remain after the cursor. -/
theorem st_expand_string_grows (t : StringTokenizer) (size : Nat) (heap : Heap)
    (hpos : t.position ≤ t.length) (hblock : t.length ≤ t.string.length)
    (hcover : t.length - t.position < size)
    (hsize : t.length + max size t.incremental_factor < SIZE) :
    (realloc t.string (t.length + max size t.incremental_factor) heap = none →
      st_expand_string t size heap = (0, t)) ∧
    (∀ s, realloc t.string (t.length + max size t.incremental_factor) heap = some s →
      ∃ t1, st_expand_string t size heap = (1, t1)) ∧
    (∀ t1, st_expand_string t size heap = (1, t1) →
      t1.length = t.length + max size t.incremental_factor ∧
      t1.incremental_factor = max size t.incremental_factor ∧
      t1.position = t.position ∧
      (∀ i, i < t.length → t1.string[i]? = t.string[i]?) ∧
      size ≤ t1.length - t1.position) := by
  have hgrow : ¬ (t.position + size) % SIZE < t.length := by
    rw [Nat.mod_eq_of_lt (by omega)]; omega
  have hmod : (t.length + max size t.incremental_factor) % SIZE
      = t.length + max size t.incremental_factor := Nat.mod_eq_of_lt hsize
  have heq := st_expand_string_eq t size heap hgrow
  rw [hmod] at heq
  refine ⟨fun h => by rw [heq, h], fun s h => ⟨_, by rw [heq, h]⟩, fun t1 h => ?_⟩
  rw [heq] at h
  cases hr : realloc t.string (t.length + max size t.incremental_factor) heap with
  | none => rw [hr] at h; simp at h
  | some s =>
    rw [hr] at h
    simp only [Prod.mk.injEq, true_and] at h
    subst h
    obtain ⟨_, hl, hget⟩ := realloc_some _ _ _ _ hr
    refine ⟨rfl, rfl, rfl, fun i hi => hget i (by omega) (by omega), ?_⟩
    show size ≤ t.length + max size t.incremental_factor - t.position
    omega

/-- On a four-byte buffer with the cursor at 2, a request of 3 bytes grows the capacity by
`max 3 4 = 4` to 8 when `realloc` succeeds and reports failure when it does not. -/
theorem st_expand_string_grows_witness :
    st_expand_string (blank4 2) 3 none = (0, blank4 2) ∧
    ∃ t1, st_expand_string (blank4 2) 3 nines = (1, t1) ∧ t1.length = 8 ∧
      t1.incremental_factor = 4 ∧ t1.position = 2 := by
  have h := st_expand_string_grows (blank4 2) 3 nines (by decide) (by decide) (by decide)
    (by decide)
  have h0 := (st_expand_string_grows (blank4 2) 3 none (by decide) (by decide) (by decide)
    (by decide)).1 (by decide)
  obtain ⟨t1, ht1⟩ := h.2.1 _ (by decide : realloc (blank4 2).string
    ((blank4 2).length + max 3 (blank4 2).incremental_factor) nines
      = some [32, 32, 32, 32, 0, 9, 9, 9])
  obtain ⟨hl, hi, hp, _, _⟩ := h.2.2 t1 ht1
  exact ⟨h0, t1, ht1, hl, hi, hp⟩

/-! ## The growth step -/

theorem st_next_token_factor (t t1 : StringTokenizer) (h : st_next_token t = .ok t1) :
    t1.incremental_factor = t.incremental_factor := by
  unfold st_next_token at h
  split at h
  · cases h
  · cases h; rfl

theorem st_sub_string_factor (t : StringTokenizer) (start_delim end_delim : Int)
    (r : Option CBuffer) (t1 : StringTokenizer)
    (h : st_sub_string t start_delim end_delim = .ok (r, t1)) :
    t1.incremental_factor = t.incremental_factor := by
  simp only [st_sub_string] at h
  repeat' split at h
  all_goals first | (cases h; rfl) | cases h

theorem st_slice_string_factor (t : StringTokenizer) (length : Int) (r : Option CBuffer)
    (t1 : StringTokenizer) (h : st_slice_string t length = .ok (r, t1)) :
    t1.incremental_factor = t.incremental_factor := by
  have := st_slice_string_frame t length r t1 h
  rw [← this]

theorem st_extract_numbers_factor (t : StringTokenizer) (r : Option CBuffer)
    (t1 : StringTokenizer) (h : st_extract_numbers t = .ok (r, t1)) :
    t1.incremental_factor = t.incremental_factor := by
  simp only [st_extract_numbers] at h
  repeat' split at h
  all_goals first | (cases h; rfl) | cases h

theorem st_starts_with_factor (t : StringTokenizer) (needle : List Int) (r : Int)
    (t1 : StringTokenizer) (h : st_starts_with t needle = .ok (r, t1)) :
    t1.incremental_factor = t.incremental_factor := by
  unfold st_starts_with at h
  simp only at h
  cases hs : st_slice_string t (toInt (strlen needle)) with
  | error e => rw [hs] at h; cases h
  | ok res =>
    obtain ⟨x, t2⟩ := res
    have hf := st_slice_string_factor t _ x t2 hs
    rw [hs] at h
    cases x with
    | none => simp only at h; cases h; exact hf
    | some e =>
      simp only at h
      repeat' split at h
      all_goals first | (cases h; exact hf) | cases h

theorem st_extract_double_factor {α : Type} (strtod : List Int → α) (t : StringTokenizer)
    (r : Option α) (t1 : StringTokenizer) (h : st_extract_double strtod t = .ok (r, t1)) :
    t1.incremental_factor = t.incremental_factor := by
  unfold st_extract_double at h
  cases hs : st_extract_numbers t with
  | error e => rw [hs] at h; cases h
  | ok res =>
    obtain ⟨x, t2⟩ := res
    have hf := st_extract_numbers_factor t x t2 hs
    rw [hs] at h
    cases x <;> (simp only at h; cases h; exact hf)

theorem st_extract_boolean_factor (t : StringTokenizer) (bool_value : List Int)
    (int_value : Int) (r : Option Int) (t1 : StringTokenizer)
    (h : st_extract_boolean t bool_value int_value = .ok (r, t1)) :
    t1.incremental_factor = t.incremental_factor := by
  unfold st_extract_boolean at h
  cases hs : st_starts_with t bool_value with
  | error e => rw [hs] at h; cases h
  | ok res =>
    obtain ⟨x, t2⟩ := res
    have hf := st_starts_with_factor t _ x t2 hs
    rw [hs] at h
    simp only at h
    split at h <;> (cases h; exact hf)

theorem st_expand_string_factor (t : StringTokenizer) (size : Nat) (heap : Heap) :
    t.incremental_factor ≤ (st_expand_string t size heap).2.incremental_factor := by
  unfold st_expand_string
  split
  · exact le_refl _
  · simp only
    split
    · exact le_refl _
    · simp only
      split <;> omega

theorem st_append_string_factor (t : StringTokenizer) (string : List Int) (heap : Heap)
    (r : Int) (t1 : StringTokenizer) (h : st_append_string t string heap = .ok (r, t1)) :
    t.incremental_factor ≤ t1.incremental_factor := by
  have hf := st_expand_string_factor t (strlen string) heap
  unfold st_append_string at h
  simp only at h
  split at h
  · cases h; exact hf
  · split at h
    · cases h
    · cases h; exact hf

theorem st_append_quoted_string_factor (t : StringTokenizer) (string : List Int)
    (heap1 heap2 heap3 : Heap) (r : Int) (t1 : StringTokenizer)
    (h : st_append_quoted_string t string heap1 heap2 heap3 = .ok (r, t1)) :
    t.incremental_factor ≤ t1.incremental_factor := by
  unfold st_append_quoted_string at h
  cases h1 : st_append_string t [34] heap1 with
  | error e => rw [h1] at h; cases h
  | ok res1 =>
    obtain ⟨r1, u1⟩ := res1
    have f1 := st_append_string_factor t _ heap1 r1 u1 h1
    rw [h1] at h
    simp only at h
    split at h
    · cases h; exact f1
    · cases h2 : st_append_string u1 string heap2 with
      | error e => rw [h2] at h; cases h
      | ok res2 =>
        obtain ⟨r2, u2⟩ := res2
        have f2 := st_append_string_factor u1 _ heap2 r2 u2 h2
        rw [h2] at h
        simp only at h
        split at h
        · cases h; omega
        · cases h3 : st_append_string u2 [34] heap3 with
          | error e => rw [h3] at h; cases h
          | ok res3 =>
            obtain ⟨r3, u3⟩ := res3
            have f3 := st_append_string_factor u2 _ heap3 r3 u3 h3
            rw [h3] at h
            simp only at h
            split at h <;> (cases h; omega)

theorem st_append_double_factor (t : StringTokenizer) (gcvt : Option (List Int)) (heap : Heap)
    (r : Int) (t1 : StringTokenizer) (h : st_append_double t gcvt heap = .ok (r, t1)) :
    t.incremental_factor ≤ t1.incremental_factor := by
  unfold st_append_double at h
  cases gcvt with
  | none => simp only at h; cases h; exact le_refl _
  | some s => exact st_append_string_factor t s heap r t1 h

/-- C13: no operation of the tokenizer lowers `incremental_factor`; and of two growing calls
of `st_expand_string` that follow each other (only operations that leave capacity and growth
step alone in between), with requests `a` then `b < a`, the second enlarges the capacity by
at least as much as the first. -/
theorem growth_step_sticky (t : StringTokenizer) :
    ((∀ t1, st_next_token t = .ok t1 → t.incremental_factor ≤ t1.incremental_factor) ∧
     (∀ start_delim end_delim r t1, st_sub_string t start_delim end_delim = .ok (r, t1) →
        t.incremental_factor ≤ t1.incremental_factor) ∧
     (∀ length r t1, st_slice_string t length = .ok (r, t1) →
        t.incremental_factor ≤ t1.incremental_factor) ∧
     (∀ r t1, st_extract_numbers t = .ok (r, t1) →
        t.incremental_factor ≤ t1.incremental_factor) ∧
     (∀ (strtod : List Int → Int) r t1, st_extract_double strtod t = .ok (r, t1) →
        t.incremental_factor ≤ t1.incremental_factor) ∧
     (∀ needle r t1, st_starts_with t needle = .ok (r, t1) →
        t.incremental_factor ≤ t1.incremental_factor) ∧
     (∀ bool_value int_value r t1, st_extract_boolean t bool_value int_value = .ok (r, t1) →
        t.incremental_factor ≤ t1.incremental_factor) ∧
     (∀ size heap, t.incremental_factor ≤ (st_expand_string t size heap).2.incremental_factor) ∧
     (∀ string heap r t1, st_append_string t string heap = .ok (r, t1) →
        t.incremental_factor ≤ t1.incremental_factor) ∧
     (∀ string heap1 heap2 heap3 r t1,
        st_append_quoted_string t string heap1 heap2 heap3 = .ok (r, t1) →
        t.incremental_factor ≤ t1.incremental_factor) ∧
     (∀ gcvt heap r t1, st_append_double t gcvt heap = .ok (r, t1) →
        t.incremental_factor ≤ t1.incremental_factor)) ∧
    (∀ a b heap1 heap2 t1 u t2,
      t.length < SIZE → t.incremental_factor < SIZE → a < SIZE →
      ¬ (t.position + a) % SIZE < t.length → st_expand_string t a heap1 = (1, t1) →
      u.length = t1.length → u.incremental_factor = t1.incremental_factor →
      ¬ (u.position + b) % SIZE < u.length → st_expand_string u b heap2 = (1, t2) →
      b < a →
      (t1.length : Int) - t.length ≤ (t2.length : Int) - u.length) := by
  refine ⟨⟨?_, ?_, ?_, ?_, ?_, ?_, ?_, ?_, ?_, ?_, ?_⟩, ?_⟩
  · intro t1 h; rw [st_next_token_factor t t1 h]
  · intro sd ed r t1 h; rw [st_sub_string_factor t sd ed r t1 h]
  · intro l r t1 h; rw [st_slice_string_factor t l r t1 h]
  · intro r t1 h; rw [st_extract_numbers_factor t r t1 h]
  · intro f r t1 h; rw [st_extract_double_factor f t r t1 h]
  · intro n r t1 h; rw [st_starts_with_factor t n r t1 h]
  · intro b i r t1 h; rw [st_extract_boolean_factor t b i r t1 h]
  · intro size heap; exact st_expand_string_factor t size heap
  · intro s heap r t1 h; exact st_append_string_factor t s heap r t1 h
  · intro s h1 h2 h3 r t1 h; exact st_append_quoted_string_factor t s h1 h2 h3 r t1 h
  · intro g heap r t1 h; exact st_append_double_factor t g heap r t1 h
  · intro a b heap1 heap2 t1 u t2 hlen hinc ha hg1 h1 hul hui hg2 h2 hba
    rw [st_expand_string_eq t a heap1 hg1] at h1
    rw [st_expand_string_eq u b heap2 hg2] at h2
    cases hr1 : realloc t.string ((t.length + max a t.incremental_factor) % SIZE) heap1 with
    | none => rw [hr1] at h1; simp at h1
    | some s1 =>
      rw [hr1] at h1
      simp only [Prod.mk.injEq, true_and] at h1
      subst h1
      obtain ⟨hp1, _, _⟩ := realloc_some _ _ _ _ hr1
      simp only at hul hui
      cases hr2 : realloc u.string ((u.length + max b u.incremental_factor) % SIZE) heap2 with
      | none => rw [hr2] at h2; simp at h2
      | some s2 =>
        rw [hr2] at h2
        simp only [Prod.mk.injEq, true_and] at h2
        subst h2
        obtain ⟨hp2, _, _⟩ := realloc_some _ _ _ _ hr2
        simp only
        rw [hui, hul] at hp2 ⊢
        have hmax : max b (max a t.incremental_factor) = max a t.incremental_factor := by
          omega
        rw [hmax] at hp2 ⊢
        simp only [SIZE, PTRDIFF_MAX] at *
        omega

/-- A four-byte buffer with the cursor at its end is grown by 10 for a request of 10; with
the cursor at the new end, a request of 3 grows it by 10 again (from 14 to 24). -/
theorem growth_step_sticky_witness :
    ∃ t1 t2, st_expand_string (blank4 4) 10 nines = (1, t1) ∧
      st_expand_string { t1 with position := 14 } 3 nines = (1, t2) ∧
      t1.length = 14 ∧ t2.length = 24 ∧
      (t1.length : Int) - (blank4 4).length ≤ (t2.length : Int) - t1.length := by
  refine ⟨(st_expand_string (blank4 4) 10 nines).2,
    (st_expand_string { (st_expand_string (blank4 4) 10 nines).2 with position := 14 } 3
      nines).2, by decide, by decide, by decide, by decide, ?_⟩
  exact (growth_step_sticky (blank4 4)).2 10 3 nines nines
    (st_expand_string (blank4 4) 10 nines).2
    { (st_expand_string (blank4 4) 10 nines).2 with position := 14 } _
    (by decide) (by decide) (by decide) (by decide) (by decide) rfl rfl (by decide)
    (by decide) (by decide)

/-! ## `st_append_string` and `st_append_quoted_string` -/

theorem append_loop_spec (text : List Int) (end_ : Nat) (hend : end_ < SIZE) :
    ∀ (k fuel : Nat) (block : List Int) (position index : Nat),
      position + k = end_ → end_ ≤ block.length → index + k < SIZE →
      (∀ j, j < k → ∃ c, text[index + j]? = some c) → k < fuel →
      ∃ block1, append_loop text end_ fuel block position index = .ok (block1, end_) ∧
        block1.length = block.length ∧
        (∀ i, i < position → block1[i]? = block[i]?) ∧
        (∀ i, end_ ≤ i → block1[i]? = block[i]?) ∧
        (∀ j, j < k → block1[position + j]? = text[index + j]?) := by
  intro k
  induction k with
  | zero =>
    intro fuel block position index hk _ _ _ hfuel
    cases fuel with
    | zero => omega
    | succ f =>
      have hpe : position = end_ := by omega
      subst hpe
      refine ⟨block, ?_, rfl, fun _ _ => rfl, fun _ _ => rfl, fun j hj => by omega⟩
      simp only [append_loop, Nat.lt_irrefl, if_false]
  | succ k ih =>
    intro fuel block position index hk hlen hidx htext hfuel
    cases fuel with
    | zero => omega
    | succ f =>
      obtain ⟨c, hc⟩ := htext 0 (by omega)
      simp only [Nat.add_zero] at hc
      have hlt : position < end_ := by omega
      have hw : position < block.length := by omega
      have hm1 : (position + 1) % SIZE = position + 1 := Nat.mod_eq_of_lt (by omega)
      have hm2 : (index + 1) % SIZE = index + 1 := Nat.mod_eq_of_lt (by omega)
      obtain ⟨block1, hrun, hl, hlow, hhigh, hmid⟩ := ih f (block.set position c)
        (position + 1) (index + 1) (by omega) (by simpa using hlen) (by omega)
        (fun j hj => by
          have := htext (j + 1) (by omega)
          rwa [show index + (j + 1) = index + 1 + j by omega] at this)
        (by omega)
      refine ⟨block1, ?_, by simpa using hl, ?_, ?_, ?_⟩
      · simp only [append_loop, hlt, if_true, readAt_ok _ _ _ hc, writeAt, hw, hm1, hm2, hrun]
      · intro i hi
        rw [hlow i (by omega), List.getElem?_set_ne (by omega)]
      · intro i hi
        rw [hhigh i hi, List.getElem?_set_ne (by omega)]
      · intro j hj
        cases j with
        | zero =>
          rw [Nat.add_zero, Nat.add_zero, hlow position (by omega), hc,
            List.getElem?_set_eq_of_lt _ hw]
        | succ j =>
          have := hmid j (by omega)
          rwa [show position + 1 + j = position + (j + 1) by omega,
            show index + 1 + j = index + (j + 1) by omega] at this

theorem st_expand_string_fail (t : StringTokenizer) (size : Nat) (heap : Heap)
    (t1 : StringTokenizer) (h : st_expand_string t size heap = (0, t1)) : t1 = t := by
  unfold st_expand_string at h
  split at h
  · simp at h
  · simp only at h
    split at h
    · simp only [Prod.mk.injEq, true_and] at h; exact h.symm
    · simp at h

theorem st_expand_string_cases (t : StringTokenizer) (size : Nat) (heap : Heap)
    (hs : Sized t) (hpos : t.position ≤ t.length) (hsize : size ≤ PTRDIFF_MAX) :
    st_expand_string t size heap = (0, t) ∨
    ∃ t1, st_expand_string t size heap = (1, t1) ∧ Sized t1 ∧ t1.position = t.position ∧
      t.position + size ≤ t1.length ∧ t.length ≤ t1.length ∧
      (∀ i, i < t.length → t1.string[i]? = t.string[i]?) := by
  obtain ⟨h1, h2, h3⟩ := hs
  by_cases hfit : t.position + size < t.length
  · exact Or.inr ⟨t, st_expand_string_noop t size heap hfit, ⟨h1, h2, h3⟩, rfl, by omega,
      le_refl _, fun _ _ => rfl⟩
  · have hgrow : ¬ (t.position + size) % SIZE < t.length := by
      rw [Nat.mod_eq_of_lt (by simp only [SIZE, PTRDIFF_MAX] at *; omega)]; exact hfit
    have hmod : (t.length + max size t.incremental_factor) % SIZE
        = t.length + max size t.incremental_factor :=
      Nat.mod_eq_of_lt (by simp only [SIZE, PTRDIFF_MAX] at *; omega)
    have heq := st_expand_string_eq t size heap hgrow
    rw [hmod] at heq
    cases hr : realloc t.string (t.length + max size t.incremental_factor) heap with
    | none => left; rw [heq, hr]
    | some s =>
      right
      obtain ⟨hp, hl, hget⟩ := realloc_some _ _ _ _ hr
      refine ⟨{ t with string := s, length := t.length + max size t.incremental_factor,
                       incremental_factor := max size t.incremental_factor },
        by rw [heq, hr], ⟨?_, ?_, ?_⟩, rfl, ?_, ?_, ?_⟩
      · show t.length + max size t.incremental_factor ≤ s.length
        omega
      · show s.length ≤ PTRDIFF_MAX
        omega
      · show max size t.incremental_factor ≤ PTRDIFF_MAX
        omega
      · show t.position + size ≤ t.length + max size t.incremental_factor
        omega
      · show t.length ≤ t.length + max size t.incremental_factor
        omega
      · intro i hi
        exact hget i (by omega) (by omega)

theorem st_append_string_cases (t : StringTokenizer) (string : List Int) (heap : Heap)
    (hs : Sized t) (hpos : t.position ≤ t.length) (htext : strlen string ≤ PTRDIFF_MAX) :
    (st_expand_string t (strlen string) heap = (0, t) ∧
      st_append_string t string heap = .ok (0, t)) ∨
    ∃ t1, st_append_string t string heap = .ok (1, t1) ∧ Sized t1 ∧
      t1.position = t.position + strlen string ∧ t1.position ≤ t1.length ∧
      t.length ≤ t1.length ∧
      (∀ i, i < t.position → t1.string[i]? = t.string[i]?) ∧
      (∀ j, j < strlen string → t1.string[t.position + j]? = string[j]?) := by
  rcases st_expand_string_cases t (strlen string) heap hs hpos htext with h0 | ⟨u, hu, hsu, hup,
      hfit, hgrow, hkeep⟩
  · left
    refine ⟨h0, ?_⟩
    simp only [st_append_string, h0, if_true]
  · right
    obtain ⟨s1, s2, s3⟩ := hsu
    have hend : (u.position + strlen string) % SIZE = t.position + strlen string := by
      rw [hup]
      exact Nat.mod_eq_of_lt (by simp only [SIZE, PTRDIFF_MAX] at *; omega)
    obtain ⟨block1, hrun, hl, hlow, _, hmid⟩ := append_loop_spec (string ++ [0])
      (t.position + strlen string) (by simp only [SIZE, PTRDIFF_MAX] at *; omega)
      (strlen string) (u.string.length + 1) u.string t.position 0 rfl (by omega)
      (by simp only [SIZE, PTRDIFF_MAX] at *; omega)
      (fun j hj => by
        obtain ⟨c, hc, _⟩ := strlen_get string j hj
        exact ⟨c, by rw [Nat.zero_add, needle_getElem? string j hj, hc]⟩)
      (by omega)
    refine ⟨{ u with string := block1, position := t.position + strlen string }, ?_,
      ⟨by show u.length ≤ block1.length; omega, by show block1.length ≤ PTRDIFF_MAX; omega, s3⟩,
      rfl, hfit, hgrow, ?_, ?_⟩
    · simp only [st_append_string, hu, hend]
      rw [hup, hrun]
      simp
    · intro i hi
      show block1[i]? = t.string[i]?
      rw [hlow i hi, hkeep i (by omega)]
    · intro j hj
      show block1[t.position + j]? = string[j]?
      rw [hmid j hj, Nat.zero_add, needle_getElem? string j hj]

/-- C14: on a tokenizer whose sizes are sizes of objects, with `position ≤ length`,
`st_append_string` never faults and reports 0 or 1; when it reports 1 the bytes from the old
position on are those of the text, every byte below the old position is unchanged, and the
cursor is at the old position plus `strlen string`; when `st_expand_string` reports 0 it
reports 0 and the tokenizer is unchanged. -/
theorem st_append_string_overwrites (t : StringTokenizer) (string : List Int) (heap : Heap)
    (hs : Sized t) (hpos : t.position ≤ t.length) (htext : strlen string ≤ PTRDIFF_MAX) :
    (st_append_string t string heap = .ok (0, t) ∨
      ∃ t1, st_append_string t string heap = .ok (1, t1)) ∧
    (∀ t1, st_append_string t string heap = .ok (1, t1) →
      (∀ j, j < strlen string → t1.string[t.position + j]? = string[j]?) ∧
      (∀ i, i < t.position → t1.string[i]? = t.string[i]?) ∧
      t1.position = t.position + strlen string) ∧
    ((st_expand_string t (strlen string) heap).1 = 0 →
      st_append_string t string heap = .ok (0, t)) := by
  have hc := st_append_string_cases t string heap hs hpos htext
  refine ⟨?_, ?_, ?_⟩
  · rcases hc with ⟨_, h⟩ | ⟨t1, h, _⟩
    · exact Or.inl h
    · exact Or.inr ⟨t1, h⟩
  · intro t1 h1
    rcases hc with ⟨_, h⟩ | ⟨u, h, _, hp, _, _, hlow, hmid⟩
    · rw [h] at h1; simp at h1
    · rw [h] at h1
      simp only [Outcome.ok.injEq, Prod.mk.injEq, true_and] at h1
      subst h1
      exact ⟨hmid, hlow, hp⟩
  · intro h0
    have hfail : st_expand_string t (strlen string) heap = (0, t) :=
      Prod.ext h0 (st_expand_string_fail t (strlen string) heap
        (st_expand_string t (strlen string) heap).2 (Prod.ext h0 rfl))
    simp only [st_append_string, hfail, if_true]

/-- On the four-byte blank buffer at 0, appending `"hi"` (no growth needed) stores `h`, `i`
at indices 0 and 1 and moves the cursor to 2. -/
theorem st_append_string_overwrites_witness :
    st_append_string (blank4 0) (chars "hi") none =
      .ok (1, { string := [104, 105, 32, 32, 0], length := 4, position := 2,
                incremental_factor := 4 }) ∧
    ∀ t1, st_append_string (blank4 0) (chars "hi") none = .ok (1, t1) →
      (∀ j, j < strlen (chars "hi") → t1.string[(blank4 0).position + j]? = (chars "hi")[j]?) ∧
      (∀ i, i < (blank4 0).position → t1.string[i]? = (blank4 0).string[i]?) ∧
      t1.position = (blank4 0).position + strlen (chars "hi") :=
  ⟨by decide, (st_append_string_overwrites (blank4 0) (chars "hi") none (by decide)
    (by decide) (by decide)).2.1⟩

theorem strlen_quote : strlen [34] = 1 := by decide

/-- C15: on a tokenizer whose sizes are sizes of objects, with `position ≤ length`,
`st_append_quoted_string` never faults; when it reports 1 the bytes from the old position on
are `"`, the bytes of the text, `"`, and the cursor is at the old position plus
`strlen string + 2`. -/
theorem st_append_quoted_string_wraps (t : StringTokenizer) (string : List Int)
    (heap1 heap2 heap3 : Heap) (hs : Sized t) (hpos : t.position ≤ t.length)
    (htext : strlen string ≤ PTRDIFF_MAX) :
    (∃ r t1, st_append_quoted_string t string heap1 heap2 heap3 = .ok (r, t1) ∧
      (r = 0 ∨ r = 1)) ∧
    (∀ t1, st_append_quoted_string t string heap1 heap2 heap3 = .ok (1, t1) →
      t1.string[t.position]? = some 34 ∧
      (∀ j, j < strlen string → t1.string[t.position + 1 + j]? = string[j]?) ∧
      t1.string[t.position + 1 + strlen string]? = some 34 ∧
      t1.position = t.position + strlen string + 2) := by
  have hq : strlen [34] ≤ PTRDIFF_MAX := by decide
  rcases st_append_string_cases t [34] heap1 hs hpos hq with
    ⟨_, h1⟩ | ⟨u1, h1, s1, p1, l1, _, low1, mid1⟩
  · refine ⟨⟨0, t, ?_, Or.inl rfl⟩, fun t1 h => ?_⟩
    · simp only [st_append_quoted_string, h1, if_true]
    · simp [st_append_quoted_string, h1] at h
  · rw [strlen_quote] at p1 mid1
    have hfirst : u1.string[t.position]? = some 34 := by
      simpa using mid1 0 (by omega)
    rcases st_append_string_cases u1 string heap2 s1 l1 htext with
      ⟨_, h2⟩ | ⟨u2, h2, s2, p2, l2, _, low2, mid2⟩
    · refine ⟨⟨0, u1, ?_, Or.inl rfl⟩, fun t1 h => ?_⟩
      · simp [st_append_quoted_string, h1, h2]
      · simp [st_append_quoted_string, h1, h2] at h
    · rcases st_append_string_cases u2 [34] heap3 s2 l2 hq with
        ⟨_, h3⟩ | ⟨u3, h3, s3, p3, l3, _, low3, mid3⟩
      · refine ⟨⟨0, u2, ?_, Or.inl rfl⟩, fun t1 h => ?_⟩
        · simp [st_append_quoted_string, h1, h2, h3]
        · simp [st_append_quoted_string, h1, h2, h3] at h
      · rw [strlen_quote] at p3 mid3
        refine ⟨⟨1, u3, ?_, Or.inr rfl⟩, fun t1 h => ?_⟩
        · simp [st_append_quoted_string, h1, h2, h3]
        · have ht : t1 = u3 := by
            simp [st_append_quoted_string, h1, h2, h3] at h
            exact h.symm
          subst ht
          refine ⟨?_, ?_, ?_, ?_⟩
          · rw [low3 t.position (by omega), low2 t.position (by omega), hfirst]
          · intro j hj
            rw [low3 (t.position + 1 + j) (by omega), ← p1, mid2 j hj]
          · have := mid3 0 (by omega)
            rw [Nat.add_zero, p2, p1] at this
            rw [this]
            rfl
          · omega

/-- On the fresh four-byte buffer, appending `"hi"` in quotes stores `"hi"` with its quotes
at indices 0..3 and moves the cursor to 4 (the closing quote fits exactly, so the third
append goes through `realloc`); on a five-byte buffer no `realloc` is needed. -/
theorem st_append_quoted_string_wraps_witness :
    st_append_quoted_string (blank4 0) (chars "hi") none none nines =
      .ok (1, { string := [34, 104, 105, 34, 0, 9, 9, 9], length := 8, position := 4,
                incremental_factor := 4 }) ∧
    st_append_quoted_string blank5 (chars "hi") none none none =
      .ok (1, { string := [34, 104, 105, 34, 32, 0], length := 5, position := 4,
                incremental_factor := 5 }) ∧
    ∀ t1, st_append_quoted_string (blank4 0) (chars "hi") none none nines = .ok (1, t1) →
      t1.string[(blank4 0).position]? = some 34 ∧
      (∀ j, j < strlen (chars "hi") → t1.string[(blank4 0).position + 1 + j]? =
        (chars "hi")[j]?) ∧
      t1.string[(blank4 0).position + 1 + strlen (chars "hi")]? = some 34 ∧
      t1.position = (blank4 0).position + strlen (chars "hi") + 2 :=
  ⟨by decide, by decide, (st_append_quoted_string_wraps (blank4 0) (chars "hi") none none nines
    (by decide) (by decide) (by decide)).2⟩

/-! ## `st_create` and `st_create_empty` -/

/-- C16 (counterexample): for the non-empty text `"a"`, `st_create` returns `NULL` when the
`malloc` of the `struct` fails. -/
theorem st_create_fails_without_storage :
    strlen (chars "a" ++ [0]) = 1 ∧ st_create (some (chars "a" ++ [0])) none = .ok none := by
  decide

/-- C16 (amended): `st_create` returns `NULL` for a `NULL` text; for a NUL-terminated text it
returns `NULL` exactly when the text is empty or the `malloc` of the `struct` fails, and
otherwise a tokenizer whose buffer is the text, with `length = strlen`, `position = 0` and
`incremental_factor = 0`, on which `st_current_token` returns the first byte of the text. -/
theorem st_create_wraps_text (block : List Int) (heap : Heap)
    (hterm : strlen block < block.length) :
    st_create none heap = .ok none ∧
    (st_create (some block) heap = .ok none ↔ strlen block = 0 ∨ malloc 32 heap = none) ∧
    (0 < strlen block → malloc 32 heap ≠ none →
      st_create (some block) heap =
        .ok (some { string := block, length := strlen block, position := 0,
                    incremental_factor := 0 }) ∧
      ∃ b, block[0]? = some b ∧
        st_current_token { string := block, length := strlen block, position := 0,
                           incremental_factor := 0 } = .ok b) := by
  have hlen : strlen_block block = .ok (strlen block) := by
    simp only [strlen_block, hterm, if_true]
  refine ⟨rfl, ?_, ?_⟩
  · simp only [st_create, hlen]
    by_cases h0 : strlen block = 0
    · simp [h0]
    · cases hm : malloc 32 heap with
      | none => simp [h0]
      | some s => simp [h0]
  · intro hpos hm
    have h0 : ¬ strlen block = 0 := by omega
    refine ⟨?_, ?_⟩
    · simp only [st_create, hlen, h0, if_false]
      cases hm2 : malloc 32 heap with
      | none => exact absurd hm2 hm
      | some s => rfl
    · obtain ⟨b, hb⟩ : ∃ b, block[0]? = some b :=
        ⟨_, List.getElem?_eq_getElem (by omega)⟩
      exact ⟨b, hb, readAt_ok _ _ _ hb⟩

/-- For the text `"abc"`, with storage for the `struct`, the tokenizer wraps the four-byte
block, has capacity 3 and the cursor on `a`. -/
theorem st_create_wraps_text_witness :
    st_create (some (chars "abc" ++ [0])) nines = .ok (some (ofText "abc" 0)) ∧
    ∃ b, (chars "abc" ++ [0])[0]? = some b ∧
      st_current_token { string := chars "abc" ++ [0], length := strlen (chars "abc" ++ [0]),
                         position := 0, incremental_factor := 0 } = .ok b :=
  ⟨by decide, ((st_create_wraps_text (chars "abc" ++ [0]) nines (by decide)).2.2 (by decide)
    (by decide)).2⟩

theorem strlen_blanks (n : Nat) (tail : List Int) :
    strlen (List.replicate n 32 ++ 0 :: tail) = n := by
  induction n with
  | zero => simp [strlen]
  | succ n ih =>
    unfold strlen at ih ⊢
    rw [List.replicate_succ, List.cons_append, List.takeWhile_cons_of_pos (by decide),
      List.length_cons, ih]

theorem malloc_none (n : Nat) : malloc n none = none := by
  unfold malloc
  split <;> rfl

theorem malloc_some (n : Nat) (fresh : Nat → Int) (h : n ≤ PTRDIFF_MAX) :
    malloc n (some fresh) = some ((List.range n).map fresh) := by
  have : ¬ n > PTRDIFF_MAX := by omega
  simp only [malloc, this, if_false]

theorem drop_range_succ (n : Nat) (fresh : Nat → Int) :
    ((List.range (n + 1)).map fresh).drop n = [fresh n] := by
  rw [List.range_succ, List.map_append]
  have : ((List.range n).map fresh).length = n := by simp
  rw [List.drop_left' this]
  rfl

theorem strlen_blanks_open (n : Nat) (c : Int) (hc : c ≠ 0) :
    strlen (List.replicate n 32 ++ [c]) = n + 1 := by
  induction n with
  | zero => simp [strlen, hc]
  | succ n ih =>
    unfold strlen at ih ⊢
    rw [List.replicate_succ, List.cons_append, List.takeWhile_cons_of_pos (by decide),
      List.length_cons, ih]

/-- C17 (as the code behaves): `st_create_empty` allocates `string_size + 1` bytes, fills
`string_size` of them with blanks and never stores the terminator, so the `strlen` of
`st_create` reads the last byte as `malloc` left it. For `string_size < PTRDIFF_MAX`, when
`malloc` serves the buffer: if that byte is not NUL the `strlen` runs past the block; if it
is NUL and `string_size = 0` the result is `NULL`, because `st_create` refuses the empty
text; if it is NUL and `1 ≤ string_size` the result is `NULL` exactly when the `malloc` of
the `struct` fails and otherwise a tokenizer with `length = string_size`, `position = 0`,
`incremental_factor = string_size` and `string_size` blanks in the buffer. When `malloc`
does not serve the buffer the result is `NULL`. -/
theorem st_create_empty_unterminated (string_size : Nat) (fresh : Nat → Int) (heap : Heap)
    (h2 : string_size < PTRDIFF_MAX) :
    st_create_empty string_size none heap = .ok none ∧
    (fresh string_size ≠ 0 →
      st_create_empty string_size (some fresh) heap = .error .outOfBounds) ∧
    (fresh string_size = 0 → string_size = 0 →
      st_create_empty string_size (some fresh) heap = .ok none) ∧
    (fresh string_size = 0 → 1 ≤ string_size → malloc 32 heap = none →
      st_create_empty string_size (some fresh) heap = .ok none) ∧
    (fresh string_size = 0 → 1 ≤ string_size → malloc 32 heap ≠ none →
      st_create_empty string_size (some fresh) heap =
        .ok (some { string := List.replicate string_size 32 ++ [0], length := string_size,
                    position := 0, incremental_factor := string_size })) := by
  have hmod : (string_size + 1) % SIZE = string_size + 1 :=
    Nat.mod_eq_of_lt (by simp only [SIZE, PTRDIFF_MAX] at *; omega)
  have hm := malloc_some (string_size + 1) fresh (by omega)
  have hset : memset ((List.range (string_size + 1)).map fresh) 32 string_size =
      .ok (List.replicate string_size 32 ++ [fresh string_size]) := by
    have : string_size ≤ ((List.range (string_size + 1)).map fresh).length := by simp
    simp only [memset, this, if_true, drop_range_succ]
  have hlen : strlen_block (List.replicate string_size 32 ++ [0]) = .ok string_size := by
    have hs := strlen_blanks string_size []
    simp only [strlen_block, hs, List.length_append, List.length_replicate, List.length_cons,
      List.length_nil]
    simp
  refine ⟨?_, ?_, ?_, ?_, ?_⟩
  · simp only [st_create_empty, malloc_none]
  · intro hnz
    have hopen : strlen_block (List.replicate string_size 32 ++ [fresh string_size])
        = .error .outOfBounds := by
      have hs := strlen_blanks_open string_size (fresh string_size) hnz
      simp only [strlen_block, hs, List.length_append, List.length_replicate, List.length_cons,
        List.length_nil]
      simp
    simp only [st_create_empty, hmod, hm, hset, st_create, hopen]
  · intro hz h0
    rw [hz] at hset
    subst h0
    simp only [st_create_empty, hmod, hm, hset, st_create, hlen, if_true]
  · intro hz h1 hnone
    have h0 : ¬ string_size = 0 := by omega
    rw [hz] at hset
    simp only [st_create_empty, hmod, hm, hset, st_create, hlen, h0, if_false, hnone]
  · intro hz h1 hsome
    have h0 : ¬ string_size = 0 := by omega
    rw [hz] at hset
    cases hm2 : malloc 32 heap with
    | none => exact absurd hm2 hsome
    | some s => simp only [st_create_empty, hmod, hm, hset, st_create, hlen, h0, if_false, hm2]

/-- For `string_size = 4` and memory full of the byte 9 the `strlen` of `st_create` runs past
the five bytes of the block; when the fifth byte reads as NUL the tokenizer holds four
blanks, capacity 4, cursor 0 and growth step 4; for `string_size = 0` the result is `NULL`
when the byte reads as NUL, and the `strlen` runs past the block when it does not. -/
theorem st_create_empty_unterminated_witness :
    st_create_empty 4 nines nines = .error .outOfBounds ∧
    st_create_empty 4 (some (fun _ => 0)) nines = .ok (some (blank4 0)) ∧
    st_create_empty 0 (some (fun _ => 0)) nines = .ok none ∧
    st_create_empty 0 nines nines = .error .outOfBounds := by
  have h := st_create_empty_unterminated 4 (fun _ => 9) nines (by decide)
  exact ⟨h.2.1 (by decide), by decide, by decide, by decide⟩

/-! ## `stold` -/

theorem terminator_after (s : List Int) : (s ++ [0])[strlen s]? = some 0 := by
  induction s with
  | nil => rfl
  | cons a l ih =>
    unfold strlen at ih ⊢
    by_cases ha : a = 0
    · subst ha
      simp [List.takeWhile]
    · rw [List.takeWhile_cons_of_pos (by simpa using ha)]
      simpa using ih

/-- C18 (counterexample): on the empty text `strtold` converts nothing and consumes nothing;
no character is left unconsumed, so `stold` returns zero with the error flag cleared: the
empty text is not reported as a parse error. -/
theorem stold_accepts_empty_text :
    stold (fun _ => no_conversion) [] { errno := EINVAL } = .ok (0, { errno := 0 }) := by
  decide

/-- C18 (amended): whatever the error flag was before, `stold` returns zero with the flag set
whenever `strtold` stores an error number or leaves a character of the text unconsumed, and
returns the value of `strtold` with the flag cleared when `strtold` stores no error number
and consumes the whole text. -/
theorem stold_strict {α : Type} [Zero α] (strtold : List Int → Strtold α)
    (numeric_string : List Int) (env : ErrorState) :
    (((strtold numeric_string).error ≠ 0 ∨
        (strtold numeric_string).consumed < strlen numeric_string) →
      ∃ e, stold strtold numeric_string env = .ok (0, { errno := e }) ∧ e ≠ 0) ∧
    ((strtold numeric_string).error = 0 →
        (strtold numeric_string).consumed = strlen numeric_string →
      stold strtold numeric_string env =
        .ok ((strtold numeric_string).value, { errno := 0 })) := by
  refine ⟨fun h => ?_, fun h0 hc => ?_⟩
  · by_cases he : (strtold numeric_string).error = 0
    · rcases h with h | h
      · exact absurd he h
      · obtain ⟨c, hc, hc0⟩ := strlen_get numeric_string _ h
        have hr : readAt (numeric_string ++ [0]) (strtold numeric_string).consumed = .ok c :=
          readAt_ok _ _ _ (by rw [needle_getElem? numeric_string _ h, hc])
        refine ⟨EINVAL, ?_, by decide⟩
        simp [stold, he, hr, hc0]
    · exact ⟨(strtold numeric_string).error, by simp [stold, he], he⟩
  · have hr : readAt (numeric_string ++ [0]) (strtold numeric_string).consumed = .ok 0 :=
      readAt_ok _ _ _ (by rw [hc]; exact terminator_after numeric_string)
    simp [stold, h0, hr]

/-- A parser that stops at the first character of `"invalid"` makes `stold` return zero with
the flag set to `EINVAL`; one that consumes all of `"12"` makes it return the parsed value
with the flag cleared. -/
theorem stold_strict_witness :
    (∃ e, stold (fun _ => no_conversion) (chars "invalid") { errno := 0 }
      = .ok (0, { errno := e }) ∧ e ≠ 0) ∧
    stold (fun _ => ({ value := 12, consumed := 2, error := 0 } : Strtold Int)) (chars "12")
      { errno := EINVAL } = .ok (12, { errno := 0 }) :=
  ⟨(stold_strict (fun _ => no_conversion) (chars "invalid") { errno := 0 }).1
      (Or.inr (by decide)),
   (stold_strict (fun _ => ({ value := 12, consumed := 2, error := 0 } : Strtold Int))
      (chars "12") { errno := EINVAL }).2 rfl (by decide)⟩

/-! ## `itos` -/

theorem decimal_digits_spec :
    ∀ (fuel n : Nat), n < fuel →
      decimal_digits fuel n ≠ [] ∧
      (∀ c, c ∈ decimal_digits fuel n → 48 ≤ c ∧ c ≤ 57) ∧
      (∀ d rest, decimal_digits fuel n = d :: rest → d = 48 → n = 0 ∧ rest = []) ∧
      digits_value (decimal_digits fuel n) = n ∧
      (∀ k, 1 ≤ k → n < 10 ^ k → (decimal_digits fuel n).length ≤ k) := by
  intro fuel
  induction fuel with
  | zero => intro n h; omega
  | succ f ih =>
    intro n hn
    by_cases h10 : n < 10
    · simp only [decimal_digits, h10, if_true]
      refine ⟨by simp, ?_, ?_, ?_, ?_⟩
      · intro c hc
        simp only [List.mem_singleton] at hc
        omega
      · intro d rest h hd
        simp only [List.cons.injEq] at h
        obtain ⟨h1, h2⟩ := h
        exact ⟨by omega, h2.symm⟩
      · simp [digits_value]
      · intro k hk _
        simpa using hk
    · obtain ⟨hne, hdig, hhead, hval, hlen⟩ := ih (n / 10) (by omega)
      simp only [decimal_digits, h10, if_false]
      refine ⟨by simp, ?_, ?_, ?_, ?_⟩
      · intro c hc
        rw [List.mem_append] at hc
        rcases hc with hc | hc
        · exact hdig c hc
        · simp only [List.mem_singleton] at hc
          omega
      · intro d rest h hd
        cases hl : decimal_digits f (n / 10) with
        | nil => exact absurd hl hne
        | cons d0 r0 =>
          rw [hl] at h
          simp only [List.cons_append, List.cons.injEq] at h
          have := (hhead d0 r0 hl (by rw [h.1, hd])).1
          omega
      · unfold digits_value at hval ⊢
        rw [List.foldl_append, hval]
        simp only [List.foldl_cons, List.foldl_nil]
        omega
      · intro k hk hnk
        cases k with
        | zero => omega
        | succ k =>
          have hk1 : 1 ≤ k := by
            rcases Nat.eq_zero_or_pos k with h0 | h0
            · subst h0; simp at hnk; omega
            · exact h0
          have hdiv : n / 10 < 10 ^ k := by
            rw [pow_succ] at hnk
            omega
          have := hlen k hk1 hdiv
          simp only [List.length_append, List.length_cons, List.length_nil]
          omega

theorem decimal_spec (n : Nat) :
    decimal n ≠ [] ∧ (∀ c, c ∈ decimal n → 48 ≤ c ∧ c ≤ 57) ∧
    (∀ d rest, decimal n = d :: rest → d = 48 → n = 0 ∧ rest = []) ∧
    digits_value (decimal n) = n ∧
    (∀ k, 1 ≤ k → n < 10 ^ k → (decimal n).length ≤ k) :=
  decimal_digits_spec (n + 1) n (by omega)

theorem takeWhile_nonzero (l tail : List Int) (h : ∀ c, c ∈ l → c ≠ 0) :
    (l ++ 0 :: tail).takeWhile (fun c => c ≠ 0) = l := by
  induction l with
  | nil => simp
  | cons a l ih =>
    have ha : a ≠ 0 := h a (by simp)
    rw [List.cons_append, List.takeWhile_cons_of_pos (by simpa using ha),
      ih (fun c hc => h c (by simp [hc]))]

theorem format_d_nonzero (value : Int) : ∀ c, c ∈ format_d value → c ≠ 0 := by
  intro c hc
  unfold format_d at hc
  have hd := (decimal_spec value.natAbs).2.1
  split at hc
  · rcases List.mem_cons.mp hc with h | h
    · omega
    · have := hd c h; omega
  · have := hd c hc; omega

theorem format_d_length (value : Int) (hmin : INT_MIN ≤ value) (hmax : value ≤ INT_MAX) :
    (format_d value).length ≤ 11 := by
  have hl := (decimal_spec value.natAbs).2.2.2.2 10 (by omega)
    (by simp only [INT_MIN, INT_MAX] at *; omega)
  unfold format_d
  split
  · simp only [List.length_cons]; omega
  · omega

/-- C19: for every `int` value, when `malloc` serves the request, `itos` returns the text
that `%d` produces, complete and terminated inside its block: a leading `-` exactly when the
value is negative, then decimal digits whose first is `0` only if the digits are the single
`0`; reading the text back as a signed decimal integer gives the value. -/
theorem itos_decimal_text (value : Int) (fresh : Nat → Int)
    (hmin : INT_MIN ≤ value) (hmax : value ≤ INT_MAX) :
    itos value none = none ∧
    ∃ r, itos value (some fresh) = some r ∧ r.bytes.length ≤ r.alloc ∧
      r.text = format_d value ∧
      (r.text.head? = some 45 ↔ value < 0) ∧
      (∃ digits, r.text = (if value < 0 then [45] else []) ++ digits ∧ digits ≠ [] ∧
        (∀ c, c ∈ digits → 48 ≤ c ∧ c ≤ 57) ∧
        (digits.head? = some 48 → digits = [48])) ∧
      parse_decimal r.text = value := by
  have hlen := format_d_length value hmin hmax
  have hsz : toSizeT (((format_d value).length : Int) + 1) = (format_d value).length + 1 := by
    rw [show (((format_d value).length : Int) + 1) = (((format_d value).length + 1 : Nat) : Int)
      by push_cast; rfl]
    exact toSizeT_natCast _ (by simp only [SIZE]; omega)
  obtain ⟨hne, hdig, hhead, hval, _⟩ := decimal_spec value.natAbs
  refine ⟨?_, ?_⟩
  · simp only [itos, snprintf, hsz, malloc_none]
  · have hm := malloc_some ((format_d value).length + 1) fresh
      (by simp only [PTRDIFF_MAX]; omega)
    have htake : (format_d value).take ((format_d value).length + 1 - 1) = format_d value := by
      rw [Nat.add_sub_cancel, List.take_length]
    have hnz : ¬ ((format_d value).length + 1 = 0) := by omega
    refine ⟨{ alloc := (format_d value).length + 1, bytes := format_d value ++ [0] }, ?_, ?_,
      ?_, ?_, ?_, ?_⟩
    · simp only [itos, snprintf, hsz, hm, hnz, if_false, htake]
    · simp
    · exact takeWhile_nonzero _ [] (format_d_nonzero value)
    · rw [show ({ alloc := (format_d value).length + 1, bytes := format_d value ++ [0] }
        : CBuffer).text = format_d value from takeWhile_nonzero _ [] (format_d_nonzero value)]
      unfold format_d
      split
      · simp [*]
      · rename_i hneg
        cases hl : decimal value.natAbs with
        | nil => exact absurd hl hne
        | cons d rest =>
          have := hdig d (by rw [hl]; simp)
          simp only [List.head?_cons, Option.some.injEq]
          constructor
          · intro h; omega
          · intro h; exact absurd h hneg
    · rw [show ({ alloc := (format_d value).length + 1, bytes := format_d value ++ [0] }
        : CBuffer).text = format_d value from takeWhile_nonzero _ [] (format_d_nonzero value)]
      refine ⟨decimal value.natAbs, ?_, hne, hdig, ?_⟩
      · unfold format_d
        split <;> rfl
      · intro h
        cases hl : decimal value.natAbs with
        | nil => exact absurd hl hne
        | cons d rest =>
          rw [hl] at h
          simp only [List.head?_cons, Option.some.injEq] at h
          rw [(hhead d rest hl h).2, h]
    · rw [show ({ alloc := (format_d value).length + 1, bytes := format_d value ++ [0] }
        : CBuffer).text = format_d value from takeWhile_nonzero _ [] (format_d_nonzero value)]
      unfold format_d
      split
      · simp only [parse_decimal, hval]
        omega
      · rename_i hneg
        cases hl : decimal value.natAbs with
        | nil => exact absurd hl hne
        | cons d rest =>
          have hd := hdig d (by rw [hl]; simp)
          have hne45 : d ≠ 45 := by omega
          have : parse_decimal (d :: rest) = (digits_value (d :: rest) : Int) := by
            unfold parse_decimal
            split
            · rename_i heq
              simp only [List.cons.injEq] at heq
              exact absurd heq.1 hne45
            · rfl
          rw [this, ← hl, hval]
          omega

/-- For `-2147483648` the result is `"-2147483648"` in a block of 12 bytes, which reads back
as the value; for 0 it is `"0"`. -/
theorem itos_decimal_text_witness :
    itos (-2147483648) nines = some { alloc := 12, bytes := chars "-2147483648" ++ [0] } ∧
    itos 0 nines = some { alloc := 2, bytes := chars "0" ++ [0] } ∧
    ∃ r, itos (-2147483648) (some (fun _ => 9)) = some r ∧ r.bytes.length ≤ r.alloc ∧
      r.text = format_d (-2147483648) ∧ parse_decimal r.text = -2147483648 := by
  obtain ⟨r, h1, h2, h3, _, _, h4⟩ := (itos_decimal_text (-2147483648) (fun _ => 9)
    (by decide) (by decide)).2
  exact ⟨by decide, by decide, r, h1, h2, h3, h4⟩

/-! ## `ldtos` -/

theorem format_Lf_shape (v : LongDouble) :
    ∃ ip fp, format_Lf 13 v = (if v.negative then [45] else []) ++ ip ++ 46 :: fp ∧
      ip = decimal (v.scaled 13 / 10 ^ 13) ∧ ip ≠ [] ∧ fp.length = 13 ∧
      (∀ c, c ∈ ip ++ fp → 48 ≤ c ∧ c ≤ 57) := by
  obtain ⟨hne, hdig, _, _, _⟩ := decimal_spec (v.scaled 13 / 10 ^ 13)
  obtain ⟨_, hdig2, _, _, hlen2⟩ := decimal_spec (v.scaled 13 % 10 ^ 13)
  have hl := hlen2 13 (by omega) (Nat.mod_lt _ (by positivity))
  refine ⟨decimal (v.scaled 13 / 10 ^ 13),
    List.replicate (13 - (decimal (v.scaled 13 % 10 ^ 13)).length) 48 ++
      decimal (v.scaled 13 % 10 ^ 13), ?_, rfl, hne, ?_, ?_⟩
  · simp [format_Lf]
  · simp only [List.length_append, List.length_replicate]
    omega
  · intro c hc
    rw [List.mem_append, List.mem_append] at hc
    rcases hc with hc | hc | hc
    · exact hdig c hc
    · have := (List.mem_replicate.mp hc).2
      omega
    · exact hdig2 c hc

set_option maxRecDepth 100000 in
/-- C20 (counterexample): for the finite value `2 ^ 300` the fixed-point text has 91 digits
before the point; `snprintf` stores only its first 99 characters into the 100-byte block, so
the returned text has 7 digits after the point. -/
theorem ldtos_cuts_large_values :
    (ldtos twoPow300 nines).map CBuffer.text = some (chars
      "2037035976334486086268445688409378161051468393665936250636140449354381299763336706183397376.0000000") := by
  decide

theorem digits_value_lt (ds : List Int) :
    (∀ c, c ∈ ds → 48 ≤ c ∧ c ≤ 57) → digits_value ds < 10 ^ ds.length := by
  induction ds using List.reverseRecOn with
  | nil => intro _; simp [digits_value]
  | append_singleton l a ih =>
    intro h
    have hl := ih (fun c hc => h c (List.mem_append_left _ hc))
    have ha := h a (by simp)
    unfold digits_value at hl ⊢
    rw [List.foldl_append]
    simp only [List.foldl_cons, List.foldl_nil, List.length_append, List.length_singleton,
      pow_succ]
    omega

theorem decimal_length_le_iff (n k : Nat) (hk : 1 ≤ k) :
    (decimal n).length ≤ k ↔ n < 10 ^ k := by
  obtain ⟨_, hdig, _, hval, hlen⟩ := decimal_spec n
  constructor
  · intro h
    have h1 := digits_value_lt (decimal n) hdig
    rw [hval] at h1
    exact lt_of_lt_of_le h1 (Nat.pow_le_pow_right (by decide) h)
  · exact hlen k hk

/-- C20 (amended): for every finite value, `ldtos` returns (when `malloc` serves the request)
the first 99 characters of the fixed-point text with 13 decimals, terminated inside its
100-byte block. That text has at most 99 characters exactly when the magnitude, rounded to
13 decimals and counted in units of `10 ^ -13`, is below `10 ^ 98` for a value without a
minus sign and below `10 ^ 97` for one with it; then the result is the complete text: an
optional `-`, the decimal digits of the integer part, a point and exactly 13 digits.
Otherwise the result has 99 characters and keeps fewer than 13 digits after the point. -/
theorem ldtos_fixed_point (v : LongDouble) (fresh : Nat → Int) :
    ldtos v none = none ∧
    ∃ (r : CBuffer) (ip fp : List Int), ldtos v (some fresh) = some r ∧
      r.bytes.length ≤ r.alloc ∧
      format_Lf NUMERIC_STRING_PRECISION v =
        (if v.negative then [45] else []) ++ ip ++ 46 :: fp ∧
      ip ≠ [] ∧ fp.length = 13 ∧ (∀ c, c ∈ ip ++ fp → 48 ≤ c ∧ c ≤ 57) ∧
      r.text = (format_Lf NUMERIC_STRING_PRECISION v).take 99 ∧
      ((format_Lf NUMERIC_STRING_PRECISION v).length ≤ 99 ↔
        v.scaled NUMERIC_STRING_PRECISION < (if v.negative then 10 ^ 97 else 10 ^ 98)) ∧
      ((format_Lf NUMERIC_STRING_PRECISION v).length ≤ 99 →
        r.text = format_Lf NUMERIC_STRING_PRECISION v) ∧
      (99 < (format_Lf NUMERIC_STRING_PRECISION v).length →
        r.text.length = 99 ∧
        ∃ k, k < 13 ∧
          r.text = ((if v.negative then [45] else []) ++ ip ++ [46]).take 99 ++ fp.take k) := by
  simp only [NUMERIC_STRING_PRECISION]
  obtain ⟨ip, fp, hshape, hip, hne, hfp, hdig⟩ := format_Lf_shape v
  have hiplen : 0 < ip.length := List.length_pos.mpr hne
  have hnz : ∀ c, c ∈ format_Lf 13 v → c ≠ 0 := by
    intro c hc
    rw [hshape, List.mem_append, List.mem_append, List.mem_cons] at hc
    rcases hc with (hc | hc) | hc | hc
    · split at hc
      · simp only [List.mem_singleton] at hc; omega
      · simp at hc
    · have := hdig c (List.mem_append_left _ hc); omega
    · omega
    · have := hdig c (List.mem_append_right _ hc); omega
  have htext : ({ alloc := 100, bytes := (format_Lf 13 v).take 99 ++ [0] } : CBuffer).text
      = (format_Lf 13 v).take 99 :=
    takeWhile_nonzero _ [] (fun c hc => hnz c (List.mem_of_mem_take hc))
  have hfull : (format_Lf 13 v).length =
      (if v.negative then [45] else ([] : List Int)).length + ip.length + 14 := by
    rw [hshape]
    simp only [List.length_append, List.length_cons, hfp]
  have hrun : ldtos v (some fresh) =
      some { alloc := 100, bytes := (format_Lf 13 v).take 99 ++ [0] } := by
    have hm := malloc_some 100 fresh (by decide)
    simp only [ldtos, NUMERIC_STRING_MAX_SIZE, NUMERIC_STRING_PRECISION, hm, snprintf]
    simp
  refine ⟨by simp only [ldtos, malloc_none],
    { alloc := 100, bytes := (format_Lf 13 v).take 99 ++ [0] }, ip, fp, hrun, ?_, hshape, hne,
    hfp, hdig, htext, ?_, ?_, ?_⟩
  · simp only [List.length_append, List.length_take, List.length_cons, List.length_nil]
    omega
  · rw [hfull, hip]
    cases hneg : v.negative with
    | true =>
      simp only [if_true, List.length_singleton]
      rw [show (1 + (decimal (v.scaled 13 / 10 ^ 13)).length + 14 ≤ 99) ↔
        ((decimal (v.scaled 13 / 10 ^ 13)).length ≤ 84) by omega,
        decimal_length_le_iff _ 84 (by decide), Nat.div_lt_iff_lt_mul (by positivity)]
      norm_num
    | false =>
      simp only [Bool.false_eq_true, if_false, List.length_nil]
      rw [show (0 + (decimal (v.scaled 13 / 10 ^ 13)).length + 14 ≤ 99) ↔
        ((decimal (v.scaled 13 / 10 ^ 13)).length ≤ 85) by omega,
        decimal_length_le_iff _ 85 (by decide), Nat.div_lt_iff_lt_mul (by positivity)]
      norm_num
  · intro hle
    rw [htext]
    exact List.take_of_length_le hle
  · intro hgt
    rw [htext]
    refine ⟨by rw [List.length_take]; omega,
      99 - ((if v.negative then [45] else ([] : List Int)) ++ ip ++ [46]).length, ?_, ?_⟩
    · simp only [List.length_append, List.length_singleton]
      omega
    · rw [hshape, show (if v.negative then [45] else ([] : List Int)) ++ ip ++ 46 :: fp
        = ((if v.negative then [45] else ([] : List Int)) ++ ip ++ [46]) ++ fp by simp,
        List.take_append_eq_append_take]

set_option maxRecDepth 100000 in
/-- The value of the unit tests gives `"118.0472176809648"` and zero gives
`"0.0000000000000"`; `2 ^ 280` gives its complete text of 99 characters, and `-(2 ^ 280)`,
whose text has 100 characters, is returned with 12 digits after the point. -/
theorem ldtos_fixed_point_witness :
    (ldtos sample118 nines).map CBuffer.text = some (chars "118.0472176809648") ∧
    (ldtos 0 nines).map CBuffer.text = some (chars "0.0000000000000") ∧
    (ldtos twoPow280 nines).map CBuffer.text = some (chars
      "1942668892225729070919461906823518906642406839052139521251812409738904285205208498176.0000000000000") ∧
    (ldtos minusTwoPow280 nines).map CBuffer.text = some (chars
      "-1942668892225729070919461906823518906642406839052139521251812409738904285205208498176.000000000000") ∧
    ∃ r, ldtos sample118 (some (fun _ => 9)) = some r ∧ r.bytes.length ≤ r.alloc ∧
      r.text = format_Lf NUMERIC_STRING_PRECISION sample118 := by
  obtain ⟨r, ip, fp, h1, h2, _, _, _, _, _, hiff, hfull, _⟩ :=
    (ldtos_fixed_point sample118 (fun _ => 9)).2
  exact ⟨by decide, by decide, by decide, by decide, r, h1, h2, hfull (hiff.mpr (by decide))⟩

/-! ## Adequacy of the fuel of the append loop, and tokenizers that are `Sized` -/

theorem append_loop_fuel (text : List Int) (end_ : Nat) :
    ∀ (fuel : Nat) (block : List Int) (position index : Nat), block.length < SIZE →
      0 < fuel → (position < block.length → block.length < fuel + position) →
      (append_loop text end_ fuel block position index ≠ .error .outOfFuel) ∧
      ∀ b p, append_loop text end_ fuel block position index = .ok (b, p) →
        b.length = block.length := by
  intro fuel
  induction fuel with
  | zero => intro block position index _ h; omega
  | succ f ih =>
    intro block position index hs _ hinv
    unfold append_loop
    split
    · rcases readAt_cases text index with h | ⟨c, h, _⟩
      · rw [h]; simp
      · rw [h]
        simp only
        by_cases hw : position < block.length
        · have hm : (position + 1) % SIZE = position + 1 := Nat.mod_eq_of_lt (by omega)
          simp only [writeAt, hw, if_true, hm]
          have := hinv hw
          have hrec := ih (block.set position c) (position + 1) ((index + 1) % SIZE)
            (by simpa using hs) (by omega) (fun _ => by simp only [List.length_set]; omega)
          simpa using hrec
        · simp [writeAt, hw]
    · simp

theorem st_expand_string_block (t : StringTokenizer) (size : Nat) (heap : Heap)
    (hs : t.string.length < SIZE) : (st_expand_string t size heap).2.string.length < SIZE := by
  unfold st_expand_string
  split
  · exact hs
  · simp only
    split
    · exact hs
    · rename_i s hr
      obtain ⟨hp, hl, _⟩ := realloc_some _ _ _ _ hr
      show s.length < SIZE
      simp only [SIZE, PTRDIFF_MAX] at *
      omega

/-- On a block inside the address space `st_append_string` does not run out of fuel, and the
block it leaves is inside the address space again. -/
theorem st_append_string_fuel (t : StringTokenizer) (string : List Int) (heap : Heap)
    (hs : t.string.length < SIZE) :
    st_append_string t string heap ≠ .error .outOfFuel ∧
    ∀ r t1, st_append_string t string heap = .ok (r, t1) → t1.string.length < SIZE := by
  have hb := st_expand_string_block t (strlen string) heap hs
  unfold st_append_string
  simp only
  split
  · exact ⟨by simp, fun r t1 h => by cases h; exact hb⟩
  · obtain ⟨hf, hl⟩ := append_loop_fuel (string ++ [0])
      (((st_expand_string t (strlen string) heap).2.position + strlen string) % SIZE)
      ((st_expand_string t (strlen string) heap).2.string.length + 1)
      (st_expand_string t (strlen string) heap).2.string
      (st_expand_string t (strlen string) heap).2.position 0 hb (by omega) (fun _ => by omega)
    split
    · rename_i e he
      refine ⟨?_, fun r t1 h => by cases h⟩
      intro h
      cases h
      exact hf he
    · rename_i b p he
      refine ⟨by simp, fun r t1 h => ?_⟩
      cases h
      show b.length < SIZE
      rw [hl b p he]
      exact hb

/-- On a block inside the address space `st_append_quoted_string` does not run out of
fuel. -/
theorem st_append_quoted_string_fuel (t : StringTokenizer) (string : List Int)
    (heap1 heap2 heap3 : Heap) (hs : t.string.length < SIZE) :
    st_append_quoted_string t string heap1 heap2 heap3 ≠ .error .outOfFuel := by
  obtain ⟨f1, b1⟩ := st_append_string_fuel t [34] heap1 hs
  unfold st_append_quoted_string
  cases h1 : st_append_string t [34] heap1 with
  | error e => simp only; intro h; cases h; exact f1 h1
  | ok res1 =>
    obtain ⟨r1, u1⟩ := res1
    simp only
    split
    · simp
    · obtain ⟨f2, b2⟩ := st_append_string_fuel u1 string heap2 (b1 r1 u1 h1)
      cases h2 : st_append_string u1 string heap2 with
      | error e => simp only; intro h; cases h; exact f2 h2
      | ok res2 =>
        obtain ⟨r2, u2⟩ := res2
        simp only
        split
        · simp
        · obtain ⟨f3, _⟩ := st_append_string_fuel u2 [34] heap3 (b2 r2 u2 h2)
          cases h3 : st_append_string u2 [34] heap3 with
          | error e => simp only; intro h; cases h; exact f3 h3
          | ok res3 =>
            obtain ⟨r3, u3⟩ := res3
            simp only
            split <;> simp

/-- The tokenizers built by `st_create_empty` are `Sized`, with the cursor inside the
capacity. -/
theorem st_create_empty_sized (string_size : Nat) (heap_string heap : Heap)
    (t : StringTokenizer) (hsize : string_size < PTRDIFF_MAX)
    (h : st_create_empty string_size heap_string heap = .ok (some t)) :
    Sized t ∧ t.position ≤ t.length := by
  have hmod : (string_size + 1) % SIZE = string_size + 1 :=
    Nat.mod_eq_of_lt (by simp only [SIZE, PTRDIFF_MAX] at *; omega)
  simp only [st_create_empty, hmod] at h
  cases hm : malloc (string_size + 1) heap_string with
  | none => rw [hm] at h; cases h
  | some block =>
    rw [hm] at h
    simp only at h
    have hbl : block.length = string_size + 1 := by
      unfold malloc at hm
      split at hm
      · cases hm
      · cases heap_string with
        | none => cases hm
        | some fresh => simp only [Option.some.injEq] at hm; subst hm; simp
    have hle : string_size ≤ block.length := by omega
    simp only [memset, hle, if_true] at h
    have hlen2 : (List.replicate string_size 32 ++ List.drop string_size block).length
        = string_size + 1 := by
      simp only [List.length_append, List.length_replicate, List.length_drop]
      omega
    simp only [st_create] at h
    cases hsl : strlen_block (List.replicate string_size 32 ++ List.drop string_size block) with
    | error e => rw [hsl] at h; cases h
    | ok n =>
      rw [hsl] at h
      simp only at h
      have hn : n < string_size + 1 := by
        unfold strlen_block at hsl
        split at hsl
        · rename_i hlt
          cases hsl
          omega
        · cases hsl
      by_cases hn0 : n = 0
      · simp [hn0] at h
      · cases hm2 : malloc 32 heap with
        | none => simp [hn0, hm2] at h
        | some s =>
          simp only [hn0, if_false, hm2, Outcome.ok.injEq, Option.some.injEq] at h
          subst h
          refine ⟨⟨?_, ?_, ?_⟩, Nat.zero_le _⟩
          · show n ≤ (List.replicate string_size 32 ++ List.drop string_size block).length
            omega
          · show (List.replicate string_size 32 ++ List.drop string_size block).length
              ≤ PTRDIFF_MAX
            omega
          · show string_size ≤ PTRDIFF_MAX
            omega


/-! ## `st_extract_numbers` where no byte qualifies -/

theorem scan_loop_stop (s : List Int) (c : Int → Bool) (fuel position : Nat) (token : Int)
    (h : c token = false) : scan_loop s c (fuel + 1) position token = .ok position := by
  simp [scan_loop, h]

/-- C22 (as the code behaves): when the byte under the cursor is not in the numeric set,
`st_extract_numbers` and `st_extract_double` return `NULL`, but the cursor has been moved:
`tokenizer->position--` runs before the test `length == 0`, so the cursor ends one byte
before its old place, and at `2 ^ 64 - 1` when it was 0. -/
theorem st_extract_numbers_no_match_moves_cursor {α : Type} (strtod : List Int → α)
    (t : StringTokenizer) (b : Int) (hnul : NulTerminated t)
    (hb : t.string[t.position]? = some b) (hnum : is_numeric b ≠ 1) :
    st_extract_numbers t = .ok (none, { t with position := (t.position + SIZE - 1) % SIZE }) ∧
    st_extract_double strtod t =
      .ok (none, { t with position := (t.position + SIZE - 1) % SIZE }) ∧
    (t.position + SIZE - 1) % SIZE ≠ t.position := by
  have hcap := hnul.2
  have hscan : scan_loop t.string (fun c => c ≠ 0 ∧ is_numeric c = 1) (t.string.length + 1)
      t.position b = .ok t.position := scan_loop_stop _ _ _ _ _ (by simp [hnum])
  have hlen : (t.position + SIZE - t.position) % SIZE = 0 := by
    simp only [SIZE]; omega
  have hnumbers : st_extract_numbers t =
      .ok (none, { t with position := (t.position + SIZE - 1) % SIZE }) := by
    simp only [st_extract_numbers, readAt_ok _ _ _ hb, hscan, hlen, if_true]
  refine ⟨hnumbers, ?_, ?_⟩
  · simp only [st_extract_double, hnumbers]
  · simp only [SIZE] at *
    omega

/-- On `"abc"` at 0 both calls return `NULL` and leave the cursor at `2 ^ 64 - 1`; on `"xabc"`
at 1 they leave it at 0. -/
theorem st_extract_numbers_no_match_moves_cursor_witness :
    st_extract_numbers (ofText "abc" 0) = .ok (none, ofText "abc" 18446744073709551615) ∧
    st_extract_double (fun _ => (0 : Int)) (ofText "abc" 0) =
      .ok (none, ofText "abc" 18446744073709551615) ∧
    st_extract_numbers (ofText "xabc" 1) = .ok (none, ofText "xabc" 0) := by
  obtain ⟨h1, h2, _⟩ := st_extract_numbers_no_match_moves_cursor (fun _ => (0 : Int))
    (ofText "abc" 0) 97 (by decide) (by decide) (by decide)
  exact ⟨h1, h2, by decide⟩

/-! ## The `itos` of `src/itos.c` -/

theorem itos_length_spec :
    ∀ (fuel : Nat) (n length : Int), 0 ≤ n → n.toNat < fuel →
      Standalone.itos_length fuel n length =
        length + ((decimal_digits fuel n.toNat).length : Int) - 1 := by
  intro fuel
  induction fuel with
  | zero => intro n length _ h; omega
  | succ f ih =>
    intro n length hn hf
    by_cases h9 : n > 9
    · have h10 : ¬ n.toNat < 10 := by omega
      have hdiv : Int.tdiv n 10 = n / 10 := Int.tdiv_eq_ediv hn (by decide)
      have hnat : (n / 10).toNat = n.toNat / 10 := by omega
      simp only [Standalone.itos_length, h9, if_true, decimal_digits, h10, if_false, hdiv]
      rw [ih (n / 10) (length + 1) (by omega) (by omega), hnat]
      simp only [List.length_append, List.length_cons, List.length_nil]
      push_cast
      omega
    · have h10 : n.toNat < 10 := by omega
      simp only [Standalone.itos_length, h9, if_false, decimal_digits, h10, if_true]
      simp

/-- C24 (as the code behaves): the `itos` of `src/itos.c` allocates as many bytes as the value
has decimal digits when the value is not negative, and one byte when it is negative; `sprintf`
then stores the complete text and its terminator. The block is never larger than the text,
so the terminator (and, for negative values, part of the text) is stored outside it. -/
theorem standalone_itos_block_too_small (value : Int) (fresh : Nat → Int)
    (hmin : INT_MIN ≤ value) (hmax : value ≤ INT_MAX) :
    ∃ r, Standalone.itos value (some fresh) = some r ∧
      r.bytes = format_d value ++ [0] ∧
      (0 ≤ value → r.alloc = (format_d value).length) ∧
      (value < 0 → r.alloc = 1 ∧ 2 ≤ (format_d value).length) ∧
      r.alloc < (format_d value).length + 1 := by
  have hlen := format_d_length value hmin hmax
  obtain ⟨hne, _, _, _, _⟩ := decimal_spec value.natAbs
  have hpos : 0 < (decimal value.natAbs).length := List.length_pos.mpr hne
  by_cases hv : 0 ≤ value
  · have hl := itos_length_spec (value.toNat + 1) value 1 hv (by omega)
    have hfmt : format_d value = decimal_digits (value.toNat + 1) value.toNat := by
      have hnat : value.natAbs = value.toNat := by omega
      have hneg : ¬ value < 0 := by omega
      simp only [format_d, hneg, if_false, decimal, hnat]
    rw [← hfmt] at hl
    have hsz : toSizeT (Standalone.itos_length (value.toNat + 1) value 1)
        = (format_d value).length := by
      rw [hl, show (1 : Int) + ((format_d value).length : Int) - 1
        = (((format_d value).length : Nat) : Int) by omega]
      exact toSizeT_natCast _ (by simp only [SIZE]; omega)
    have hm := malloc_some (format_d value).length fresh (by simp only [PTRDIFF_MAX]; omega)
    refine ⟨{ alloc := (format_d value).length, bytes := format_d value ++ [0] }, ?_, rfl,
      fun _ => rfl, fun h => by omega, by simp⟩
    simp only [Standalone.itos, hsz, hm]
  · have hneg : value < 0 := by omega
    have h9 : ¬ value > 9 := by omega
    have hl : Standalone.itos_length (value.toNat + 1) value 1 = 1 := by
      simp only [Standalone.itos_length, h9, if_false]
    have hsz : toSizeT (1 : Int) = 1 := by decide
    have hm := malloc_some 1 fresh (by decide)
    have hfl : (format_d value).length = (decimal value.natAbs).length + 1 := by
      simp only [format_d, hneg, if_true, List.length_cons]
    refine ⟨{ alloc := 1, bytes := format_d value ++ [0] }, ?_, rfl, fun h => by omega,
      fun _ => ⟨rfl, by omega⟩, ?_⟩
    · simp only [Standalone.itos, hl, hsz, hm]
    · show 1 < (format_d value).length + 1
      omega

/-- For 30 the block has 2 bytes and `sprintf` stores the 3 bytes of `"30"` and its
terminator; for 6582 the block has 4 bytes and 5 are stored; for -123 the block has 1 byte
and 5 are stored. -/
theorem standalone_itos_block_too_small_witness :
    Standalone.itos 30 nines = some { alloc := 2, bytes := chars "30" ++ [0] } ∧
    Standalone.itos 6582 nines = some { alloc := 4, bytes := chars "6582" ++ [0] } ∧
    Standalone.itos (-123) nines = some { alloc := 1, bytes := chars "-123" ++ [0] } ∧
    ∃ r, Standalone.itos 30 (some (fun _ => 9)) = some r ∧
      r.alloc < (format_d 30).length + 1 := by
  obtain ⟨r, h1, _, _, _, h2⟩ := standalone_itos_block_too_small 30 (fun _ => 9) (by decide)
    (by decide)
  exact ⟨by decide, by decide, by decide, r, h1, h2⟩

/-! ## The stores of `st_append_string` -/

theorem append_loop_writes_agree (text : List Int) (end_ : Nat) :
    ∀ (fuel : Nat) (block : List Int) (position index : Nat) (writes : List Nat),
      (∀ b p w, append_loop_writes text end_ fuel block position index writes = .ok (b, p, w) →
        append_loop text end_ fuel block position index = .ok (b, p)) ∧
      (∀ e, append_loop_writes text end_ fuel block position index writes = .error e →
        append_loop text end_ fuel block position index = .error e) := by
  intro fuel
  induction fuel with
  | zero =>
    intro block position index writes
    simp [append_loop_writes, append_loop]
  | succ f ih =>
    intro block position index writes
    simp only [append_loop_writes, append_loop]
    by_cases hlt : position < end_
    · simp only [hlt, if_true]
      cases hr : readAt text index with
      | error e => simp
      | ok c =>
        simp only []
        cases hw : writeAt block position c with
        | error e => simp
        | ok block1 => exact ih block1 _ _ _
    · simp only [hlt, if_false]
      simp

theorem st_append_string_writes_agree (t : StringTokenizer) (string : List Int) (heap : Heap) :
    (∀ r t1 s, st_append_string_writes t string heap = .ok (r, t1, s) →
      st_append_string t string heap = .ok (r, t1)) ∧
    (∀ e, st_append_string_writes t string heap = .error e →
      st_append_string t string heap = .error e) := by
  simp only [st_append_string_writes, st_append_string]
  cases hx : st_expand_string t (strlen string) heap with
  | mk r u =>
    by_cases hr : r = 0
    · simp only [hr, if_true]
      simp
    · simp only [hr, if_false]
      obtain ⟨hok, herr⟩ := append_loop_writes_agree (string ++ [0])
        ((u.position + strlen string) % SIZE) (u.string.length + 1) u.string u.position 0 []
      cases hl : append_loop_writes (string ++ [0]) ((u.position + strlen string) % SIZE)
          (u.string.length + 1) u.string u.position 0 [] with
      | error e => rw [herr e hl]; simp
      | ok res =>
        obtain ⟨b, p, w⟩ := res
        rw [hok b p w hl]
        simp

theorem append_loop_writes_spec (text : List Int) (end_ : Nat) (hend : end_ < SIZE) :
    ∀ (k fuel : Nat) (block : List Int) (position index : Nat) (writes : List Nat),
      position + k = end_ → end_ ≤ block.length → index + k < SIZE →
      (∀ j, j < k → ∃ c, text[index + j]? = some c) → k < fuel →
      ∃ block1, append_loop_writes text end_ fuel block position index writes
        = .ok (block1, end_, writes ++ List.range' position k) := by
  intro k
  induction k with
  | zero =>
    intro fuel block position index writes hk _ _ _ hfuel
    cases fuel with
    | zero => omega
    | succ f =>
      have hpe : position = end_ := by omega
      subst hpe
      refine ⟨block, ?_⟩
      simp only [append_loop_writes, Nat.lt_irrefl, if_false, List.range'_zero,
        List.append_nil]
  | succ k ih =>
    intro fuel block position index writes hk hlen hidx htext hfuel
    cases fuel with
    | zero => omega
    | succ f =>
      obtain ⟨c, hc⟩ := htext 0 (by omega)
      simp only [Nat.add_zero] at hc
      have hlt : position < end_ := by omega
      have hw : position < block.length := by omega
      have hm1 : (position + 1) % SIZE = position + 1 := Nat.mod_eq_of_lt (by omega)
      have hm2 : (index + 1) % SIZE = index + 1 := Nat.mod_eq_of_lt (by omega)
      obtain ⟨block1, hrun⟩ := ih f (block.set position c)
        (position + 1) (index + 1) (writes ++ [position]) (by omega) (by simpa using hlen)
        (by omega)
        (fun j hj => by
          have := htext (j + 1) (by omega)
          rwa [show index + (j + 1) = index + 1 + j by omega] at this)
        (by omega)
      refine ⟨block1, ?_⟩
      simp only [append_loop_writes, hlt, if_true, readAt_ok _ _ _ hc, writeAt, hw, hm1, hm2,
        hrun, List.range'_succ, List.append_assoc, List.singleton_append]

theorem st_append_string_writes_cases (t : StringTokenizer) (string : List Int) (heap : Heap)
    (hs : Sized t) (hpos : t.position ≤ t.length) (htext : strlen string ≤ PTRDIFF_MAX) :
    (st_expand_string t (strlen string) heap = (0, t) ∧
      st_append_string t string heap = .ok (0, t) ∧
      st_append_string_writes t string heap =
        .ok (0, t, { capacity := t.length, indices := [], position := t.position })) ∨
    ∃ t1 capacity, st_append_string t string heap = .ok (1, t1) ∧
      st_append_string_writes t string heap =
        .ok (1, t1, { capacity := capacity, indices := List.range' t.position (strlen string),
                      position := t.position + strlen string }) ∧
      capacity = (st_expand_string t (strlen string) heap).2.length ∧
      t.position + strlen string ≤ capacity ∧ capacity = t1.length ∧
      t1.position = t.position + strlen string ∧ Sized t1 := by
  rcases st_expand_string_cases t (strlen string) heap hs hpos htext with h0 | ⟨u, hu, hsu, hup,
      hfit, _, _⟩
  · left
    have hw : st_append_string_writes t string heap =
        .ok (0, t, { capacity := t.length, indices := [], position := t.position }) := by
      simp only [st_append_string_writes, h0, if_true]
    exact ⟨h0, (st_append_string_writes_agree t string heap).1 _ _ _ hw, hw⟩
  · right
    obtain ⟨s1, s2, s3⟩ := hsu
    have hend : (u.position + strlen string) % SIZE = t.position + strlen string := by
      rw [hup]
      exact Nat.mod_eq_of_lt (by simp only [SIZE, PTRDIFF_MAX] at *; omega)
    obtain ⟨block1, hrun⟩ := append_loop_writes_spec (string ++ [0])
      (t.position + strlen string) (by simp only [SIZE, PTRDIFF_MAX] at *; omega)
      (strlen string) (u.string.length + 1) u.string t.position 0 [] rfl (by omega)
      (by simp only [SIZE, PTRDIFF_MAX] at *; omega)
      (fun j hj => by
        obtain ⟨c, hc, _⟩ := strlen_get string j hj
        exact ⟨c, by rw [Nat.zero_add, needle_getElem? string j hj, hc]⟩)
      (by omega)
    have hw : st_append_string_writes t string heap =
        .ok (1, { u with string := block1, position := t.position + strlen string },
          { capacity := u.length, indices := List.range' t.position (strlen string),
            position := t.position + strlen string }) := by
      simp only [st_append_string_writes, hu, hend]
      rw [hup, hrun]
      simp
    have ha := (st_append_string_writes_agree t string heap).1 _ _ _ hw
    rcases st_append_string_cases t string heap hs hpos htext with ⟨_, hz⟩ | ⟨v, hv, hsv, _⟩
    · rw [hz] at ha; simp at ha
    · rw [hv] at ha
      simp only [Outcome.ok.injEq, Prod.mk.injEq, true_and] at ha
      subst ha
      exact ⟨_, u.length, hv, hw, by rw [hu], hfit, rfl, rfl, hsv⟩

theorem st_append_string_writes_bounded (t : StringTokenizer) (string : List Int) (heap : Heap)
    (hs : Sized t) (hpos : t.position ≤ t.length) (htext : strlen string ≤ PTRDIFF_MAX) :
    ∃ r t1 s, st_append_string_writes t string heap = .ok (r, t1, s) ∧
      st_append_string t string heap = .ok (r, t1) ∧
      s.capacity = (st_expand_string t (strlen string) heap).2.length ∧
      s.position = t1.position ∧
      (r = 1 → s.indices = List.range' t.position (strlen string)) ∧
      ((∀ i, i ∈ s.indices → i < s.capacity) ∧ s.position ≤ s.capacity) ∧
      (r = 0 ∨ r = 1) ∧ (r = 1 → Sized t1 ∧ t1.position ≤ t1.length) := by
  rcases st_append_string_writes_cases t string heap hs hpos htext with ⟨h0, ha, hw⟩ |
    ⟨t1, capacity, ha, hw, hcap, hfit, hlen, hp, hsz⟩
  · refine ⟨0, t, _, hw, ha, by rw [h0], rfl, by simp, ⟨by simp, hpos⟩, Or.inl rfl, by simp⟩
  · refine ⟨1, t1, _, hw, ha, hcap, hp.symm, fun _ => rfl, ⟨?_, hfit⟩, Or.inr rfl,
      fun _ => ⟨hsz, by omega⟩⟩
    intro i hi
    have := (List.mem_range'_1.mp hi).2
    show i < capacity
    omega

/-- C23: on a tokenizer whose sizes are sizes of objects, with `position ≤ length`, and a text
that is an object, `st_append_string` returns; the indices it stores to are, when it returns
1, those from the old position up to the old position plus `strlen string`, every one of
them below the capacity in force after its call of `st_expand_string`, and the cursor at the
return is at most that capacity. The same holds for the record of each of the appends made
by `st_append_quoted_string`, which are three when it returns 1. -/
theorem st_append_string_stores_within_capacity (t : StringTokenizer) (string : List Int)
    (heap1 heap2 heap3 : Heap) (hs : Sized t) (hpos : t.position ≤ t.length)
    (htext : strlen string ≤ PTRDIFF_MAX) :
    (∃ r t1 s, st_append_string_writes t string heap1 = .ok (r, t1, s) ∧
      st_append_string t string heap1 = .ok (r, t1) ∧
      s.capacity = (st_expand_string t (strlen string) heap1).2.length ∧
      s.position = t1.position ∧
      (r = 1 → s.indices = List.range' t.position (strlen string)) ∧
      (∀ i, i ∈ s.indices → i < s.capacity) ∧ s.position ≤ s.capacity) ∧
    (∃ r t3 records,
      st_append_quoted_string_writes t string heap1 heap2 heap3 = .ok (r, t3, records) ∧
      st_append_quoted_string t string heap1 heap2 heap3 = .ok (r, t3) ∧
      (r = 1 → records.length = 3) ∧
      ∀ s, s ∈ records → (∀ i, i ∈ s.indices → i < s.capacity) ∧ s.position ≤ s.capacity) := by
  constructor
  · obtain ⟨r, t1, s, hw, ha, hc, hp, hi, hb, _, _⟩ :=
      st_append_string_writes_bounded t string heap1 hs hpos htext
    exact ⟨r, t1, s, hw, ha, hc, hp, hi, hb.1, hb.2⟩
  · obtain ⟨r1, t1, s1, hw1, ha1, _, _, _, hb1, hr1, hk1⟩ :=
      st_append_string_writes_bounded t [34] heap1 hs hpos (by decide)
    rcases hr1 with hr1 | hr1
    · subst hr1
      refine ⟨0, t1, [s1], ?_, ?_, by simp, ?_⟩
      · simp only [st_append_quoted_string_writes, hw1, if_true]
      · simp only [st_append_quoted_string, ha1, if_true]
      · intro s hmem
        simp only [List.mem_singleton] at hmem
        subst hmem
        exact hb1
    · subst hr1
      obtain ⟨hs1, hp1⟩ := hk1 rfl
      obtain ⟨r2, t2, s2, hw2, ha2, _, _, _, hb2, hr2, hk2⟩ :=
        st_append_string_writes_bounded t1 string heap2 hs1 hp1 htext
      rcases hr2 with hr2 | hr2
      · subst hr2
        refine ⟨0, t2, [s1, s2], ?_, ?_, by simp, ?_⟩
        · simp [st_append_quoted_string_writes, hw1, hw2]
        · simp [st_append_quoted_string, ha1, ha2]
        · intro s hmem
          simp only [List.mem_cons, List.mem_singleton, List.not_mem_nil, or_false] at hmem
          rcases hmem with h | h <;> subst h
          · exact hb1
          · exact hb2
      · subst hr2
        obtain ⟨hs2, hp2⟩ := hk2 rfl
        obtain ⟨r3, t3, s3, hw3, ha3, _, _, _, hb3, hr3, _⟩ :=
          st_append_string_writes_bounded t2 [34] heap3 hs2 hp2 (by decide)
        refine ⟨r3, t3, [s1, s2, s3], ?_, ?_, fun _ => rfl, ?_⟩
        · rcases hr3 with h | h <;> subst h <;>
            simp [st_append_quoted_string_writes, hw1, hw2, hw3]
        · rcases hr3 with h | h <;> subst h <;>
            simp [st_append_quoted_string, ha1, ha2, ha3]
        · intro s hmem
          simp only [List.mem_cons, List.mem_singleton, List.not_mem_nil, or_false] at hmem
          rcases hmem with h | h | h <;> subst h
          · exact hb1
          · exact hb2
          · exact hb3

/-- Appending `"hi"` at position 3 of a block of capacity 4 grows the capacity to 8 and stores
to the indices 3 and 4; appending it in quotes at position 0 of a block of capacity 5 makes
three appends, none of which grows the block, storing to 0, to 1 and 2, and to 3. -/
theorem st_append_string_stores_within_capacity_witness :
    st_append_string_writes (blank4 3) (chars "hi") nines =
      .ok (1, { string := [32, 32, 32, 104, 105, 9, 9, 9], length := 8, position := 5,
                incremental_factor := 4 },
           { capacity := 8, indices := [3, 4], position := 5 }) ∧
    st_append_quoted_string_writes blank5 (chars "hi") nines nines nines =
      .ok (1, { string := [34, 104, 105, 34, 32, 0], length := 5, position := 4,
                incremental_factor := 5 },
           [{ capacity := 5, indices := [0], position := 1 },
            { capacity := 5, indices := [1, 2], position := 3 },
            { capacity := 5, indices := [3], position := 4 }]) ∧
    ∃ r t3 records,
      st_append_quoted_string_writes (blank4 3) (chars "hi") nines nines nines
        = .ok (r, t3, records) ∧
      ∀ s, s ∈ records → (∀ i, i ∈ s.indices → i < s.capacity) ∧ s.position ≤ s.capacity := by
  obtain ⟨_, r, t3, records, h1, _, _, h2⟩ := st_append_string_stores_within_capacity
    (blank4 3) (chars "hi") nines nines nines (by decide) (by decide) (by decide)
  exact ⟨by decide, by decide, r, t3, records, h1, h2⟩

/-! ## `st_starts_with` and the length of the needle -/

theorem strlen_replicate (n : Nat) (c : Int) (hc : c ≠ 0) :
    strlen (List.replicate n c) = n := by
  induction n with
  | zero => simp [strlen]
  | succ n ih =>
    unfold strlen at ih ⊢
    rw [List.replicate_succ, List.takeWhile_cons_of_pos (by simpa using hc), List.length_cons,
      ih]

theorem strncmp_short_left :
    ∀ (xs needle : List Int) (n : Nat), xs.length < n → xs.length < strlen needle →
      ∃ r, strncmp (xs ++ [0]) (needle ++ [0]) n = .ok r ∧ r ≠ 0 := by
  intro xs
  induction xs with
  | nil =>
    intro needle n hn hlen
    obtain ⟨b, hb, hb0⟩ := strlen_get needle 0 hlen
    cases needle with
    | nil => simp at hb
    | cons b0 rest =>
      simp at hb
      subst hb
      cases n with
      | zero => simp at hn
      | succ n =>
        refine ⟨0 - b0, ?_, by omega⟩
        have : (0 : Int) ≠ b0 := fun h => hb0 h.symm
        simp [strncmp, this]
  | cons a xs ih =>
    intro needle n hn hlen
    obtain ⟨b, hb, hb0⟩ := strlen_get needle 0 (by omega)
    cases needle with
    | nil => simp at hb
    | cons b0 rest =>
      simp at hb
      subst hb
      have hrest : strlen (b0 :: rest) = strlen rest + 1 := by
        unfold strlen
        rw [List.takeWhile_cons_of_pos (by simpa using hb0), List.length_cons]
      cases n with
      | zero => simp at hn
      | succ n =>
        by_cases hab : a = b0
        · subst hab
          obtain ⟨r, hr, hr0⟩ := ih rest n (by simpa using hn)
            (by rw [hrest] at hlen; simpa using hlen)
          refine ⟨r, ?_, hr0⟩
          show strncmp (a :: (xs ++ [0])) (a :: (rest ++ [0])) (n + 1) = .ok r
          simp only [strncmp, ne_eq, not_true_eq_false, if_false, hb0]
          exact hr
        · refine ⟨a - b0, ?_, by omega⟩
          simp [strncmp, hab]

theorem toInt_range (n : Nat) : INT_MIN ≤ toInt n ∧ toInt n ≤ INT_MAX := by
  unfold toInt
  simp only [INT_MIN, INT_MAX]
  split <;> omega

theorem toInt_wraps (n : Nat) (h0 : 0 ≤ toInt n) (hlong : 2147483647 < n) :
    toInt n + 4294967296 ≤ n := by
  unfold toInt at h0 ⊢
  split at h0 <;> rename_i hlt <;> simp only [hlt, if_true, if_false] <;> omega

theorem st_starts_with_long (t : StringTokenizer) (needle : List Int) (hnul : NulTerminated t)
    (hobj : t.string.length ≤ PTRDIFF_MAX) (hpos : t.position ≤ t.length)
    (hlong : 2147483647 < strlen needle) :
    st_starts_with t needle = .ok (0, t) := by
  obtain ⟨h0, hcap⟩ := hnul
  have hlt : t.length < t.string.length := by
    by_contra hge
    rw [List.getElem?_eq_none (by omega)] at h0
    cases h0
  obtain ⟨hmin, hmax⟩ := toInt_range (strlen needle)
  by_cases hshort : (t.length : Int) - t.position < toInt (strlen needle) ∨
      toInt (strlen needle) < 0
  · have hs := st_slice_string_short t (toInt (strlen needle)) hpos hcap hmin hmax
      (by
        rcases hshort with h | h
        · exact Or.inl h
        · exact Or.inr ⟨h, by simp only [PTRDIFF_MAX] at hobj; omega⟩)
    simp only [st_starts_with, hs, with_position_self]
  · have hn0 : 0 ≤ toInt (strlen needle) := by omega
    have hnat : ((toInt (strlen needle)).toNat : Int) = toInt (strlen needle) :=
      Int.toNat_of_nonneg hn0
    have hle : (toInt (strlen needle)).toNat ≤ 2147483647 := by
      simp only [INT_MAX] at hmax; omega
    have hfit : t.position + (toInt (strlen needle)).toNat ≤ t.length := by omega
    have hs := st_slice_string_eval t (toInt (strlen needle)).toNat hle hfit
      ⟨hlt, by simp only [SIZE, PTRDIFF_MAX] at *; omega⟩
    rw [hnat] at hs
    have hwrap := toInt_wraps (strlen needle) hn0 hlong
    obtain ⟨r, hr, hr0⟩ := strncmp_short_left
      ((t.string.drop t.position).take ((toInt (strlen needle)).toNat + 1)) needle
      (strlen needle)
      (by rw [List.length_take, List.length_drop]; omega)
      (by rw [List.length_take, List.length_drop]; omega)
    simp only [st_starts_with, hs, hr, hr0, ne_eq, not_false_eq_true, if_true]

/-- C21 (as the code behaves): on a NUL-terminated tokenizer whose block is an object, with
`position ≤ length`, `st_starts_with` returns 1 or 0, and it returns 1 exactly when the needle
has at most `INT_MAX` bytes, `strlen needle ≤ length - position`, and every byte of the needle
equals the byte of the buffer at the same offset from the cursor. The length of the needle
reaches `st_slice_string` as an `int`: for a longer needle the result is 0 also when the
needle fits and every byte agrees. -/
theorem st_starts_with_true_iff (t : StringTokenizer) (needle : List Int)
    (hnul : NulTerminated t) (hobj : t.string.length ≤ PTRDIFF_MAX)
    (hpos : t.position ≤ t.length) :
    (st_starts_with t needle = .ok (1, { t with position := t.position + strlen needle + 1 }) ∨
      st_starts_with t needle = .ok (0, t)) ∧
    (st_starts_with t needle = .ok (1, { t with position := t.position + strlen needle + 1 }) ↔
      strlen needle ≤ 2147483647 ∧ strlen needle ≤ t.length - t.position ∧
        ∀ i, i < strlen needle → t.string[t.position + i]? = needle[i]?) := by
  have hlt : t.length < t.string.length := by
    by_contra hge
    have h0 := hnul.1
    rw [List.getElem?_eq_none (by omega)] at h0
    cases h0
  have hmem : Allocated t := ⟨hlt, by simp only [SIZE, PTRDIFF_MAX] at *; omega⟩
  by_cases hint : strlen needle ≤ 2147483647
  · by_cases hfit : strlen needle ≤ t.length - t.position
    · by_cases heq : ∀ i, i < strlen needle → t.string[t.position + i]? = needle[i]?
      · have h := st_starts_with_match t needle hmem hint (by omega) heq
        exact ⟨Or.inl h, fun _ => ⟨hint, hfit, heq⟩, fun _ => h⟩
      · have h := st_starts_with_mismatch t needle hmem hint (by omega)
          (by push_neg at heq; exact heq)
        refine ⟨Or.inr h, fun h1 => ?_, fun h1 => absurd h1.2.2 heq⟩
        rw [h] at h1
        simp at h1
    · have h := st_starts_with_short t needle hpos hnul.2 hint (by omega)
      refine ⟨Or.inr h, fun h1 => ?_, fun h1 => absurd h1.2.1 hfit⟩
      rw [h] at h1
      simp at h1
  · have h := st_starts_with_long t needle hnul hobj hpos (by omega)
    refine ⟨Or.inr h, fun h1 => ?_, fun h1 => absurd h1.1 hint⟩
    rw [h] at h1
    simp at h1

/-- On a text of `2 ^ 31` letters `a` and a needle of `2 ^ 31` letters `a` the needle is not
empty, fits and agrees with the buffer byte for byte, and `st_starts_with` returns 0; on
`"falsetrue"` with the needle `"false"` it returns 1. -/
theorem st_starts_with_true_iff_witness :
    NulTerminated longText ∧ longText.position ≤ longText.length ∧ 0 < strlen longNeedle ∧
    strlen longNeedle ≤ longText.length - longText.position ∧
    (∀ i, i < strlen longNeedle → longText.string[longText.position + i]? = longNeedle[i]?) ∧
    st_starts_with longText longNeedle = .ok (0, longText) ∧
    st_starts_with falseTrue (chars "false") = .ok (1, ofText "falsetrue" 6) := by
  have hlen : strlen longNeedle = 2147483648 := strlen_replicate 2147483648 97 (by decide)
  have hnul : NulTerminated longText :=
    ⟨getElem?_replicate_append 2147483648 97 [0] 0, by decide⟩
  have hsize : longText.string.length = 2147483648 + 1 :=
    length_replicate_append 2147483648 97 [0]
  have hobj : longText.string.length ≤ PTRDIFF_MAX := by
    rw [hsize]
    simp only [PTRDIFF_MAX]
    omega
  have hpos : longText.position ≤ longText.length := by decide
  have hget : ∀ i, i < 2147483648 →
      longText.string[longText.position + i]? = longNeedle[i]? := fun i hi =>
    (congrArg (fun k => (List.replicate 2147483648 (97 : Int) ++ [0])[k]?)
      (Nat.zero_add i)).trans
      (List.getElem?_append_left (by rw [List.length_replicate]; exact hi))
  obtain ⟨htot, hiff⟩ := st_starts_with_true_iff longText longNeedle hnul hobj hpos
  refine ⟨hnul, hpos, by rw [hlen]; decide, by rw [hlen]; decide, ?_, ?_, by decide⟩
  · intro i hi
    rw [hlen] at hi
    exact hget i hi
  · rcases htot with h | h
    · have := (hiff.mp h).1
      rw [hlen] at this
      omega
    · exact h

end Libstr
